import Mathlib

/-!
Verification of the sandboxed execution and verification engine of the
openscripty repository (`scripty/services/code_executor.py`,
`maketools/services/code_executor.py`, `scripty/services/files.py`).

The development shallowly embeds, over `List Char` strings:

* the sentinel wire protocol: the stdout emitted by the synthesized
  programs (`print('<$output>') ... print('</$output>')`) and the decoding
  `out.split("<$output>")[1].split("</$output>")[0]` followed by
  `json.loads`;
* a model of Python `json.dumps` / `json.loads` on a JSON value type
  (integers model Python ints; floats are outside the model);
* the input validator of `CodeExecutorService.run_code_with_inputs`, with
  `os.path.join` / `os.path.exists` modelled explicitly;
* the test-verdict classifier of `CodeExecutorService.run_test`, with the
  three regular expressions it uses modelled as executable matchers;
* the temporary-file lifecycle of `run_test` over a file-system state.
-/

set_option maxRecDepth 20000

/-- Shorthand: a Lean string literal viewed as the `List Char` strings the
model works over. -/
def S (s : String) : List Char := s.toList

/-! ## Substring search and Python `str.split` -/

/-- `containsSub sep s` is true iff `sep` occurs as a contiguous substring
of `s` (Python's `sep in s`). -/
def containsSub (sep : List Char) : List Char → Bool
  | [] => sep.isPrefixOf []
  | c :: r => sep.isPrefixOf (c :: r) || containsSub sep r

/-- `splitGo sep fuel s` is Python's `s.split(sep)` (for nonempty `sep`),
fuelled so that the recursion is structural; `fuel ≥ s.length` is always
enough fuel. -/
def splitGo (sep : List Char) : Nat → List Char → List (List Char)
  | 0, s => [s]
  | fuel+1, s =>
    if sep ≠ [] ∧ sep.isPrefixOf s then
      [] :: splitGo sep fuel (s.drop sep.length)
    else
      match s with
      | [] => [[]]
      | c :: r =>
        match splitGo sep fuel r with
        | [] => [[c]]
        | h :: t => (c :: h) :: t

/-- Python `s.split(sep)` for a nonempty separator `sep`. -/
def splitOn (sep s : List Char) : List (List Char) := splitGo sep s.length s

theorem splitGo_zero (sep s : List Char) : splitGo sep 0 s = [s] := rfl

theorem splitGo_succ (sep : List Char) (F : Nat) (s : List Char) :
    splitGo sep (F+1) s =
      if sep ≠ [] ∧ sep.isPrefixOf s then
        [] :: splitGo sep F (s.drop sep.length)
      else
        match s with
        | [] => [[]]
        | c :: r =>
          match splitGo sep F r with
          | [] => [[c]]
          | h :: t => (c :: h) :: t := rfl

theorem splitGo_succ_pos {sep s : List Char} (F : Nat) (hsep : sep ≠ [])
    (hpre : sep.isPrefixOf s = true) :
    splitGo sep (F+1) s = [] :: splitGo sep F (s.drop sep.length) := by
  rw [splitGo_succ, if_pos ⟨hsep, hpre⟩]

theorem splitGo_cons {sep : List Char} {c : Char} {r : List Char} (F : Nat)
    (hpre : sep.isPrefixOf (c :: r) = false) :
    splitGo sep (F+1) (c :: r) =
      match splitGo sep F r with
      | [] => [[c]]
      | h :: t => (c :: h) :: t := by
  rw [splitGo_succ, if_neg]
  intro h
  rw [hpre] at h
  exact Bool.false_ne_true h.2

theorem prefixOf_iff {a b : List Char} : a.isPrefixOf b = true ↔ a <+: b :=
  List.isPrefixOf_iff_prefix

theorem isPrefixOf_nil_false {sep : List Char} (hsep : sep ≠ []) :
    sep.isPrefixOf ([] : List Char) = false := by
  cases sep with
  | nil => exact absurd rfl hsep
  | cons c r => rfl

theorem prefix_containsSub {sep s : List Char} (h : sep <+: s) :
    containsSub sep s = true := by
  cases s with
  | nil =>
    simp only [containsSub, prefixOf_iff]
    exact h
  | cons c r =>
    simp only [containsSub, Bool.or_eq_true, prefixOf_iff]
    exact Or.inl h

theorem containsSub_cons_of {sep s : List Char} (c : Char)
    (h : containsSub sep s = true) : containsSub sep (c :: s) = true := by
  simp [containsSub, h]

theorem containsSub_append_right {sep b : List Char} (a : List Char)
    (h : containsSub sep b = true) : containsSub sep (a ++ b) = true := by
  induction a with
  | nil => simpa using h
  | cons c a ih => exact containsSub_cons_of c ih

theorem containsSub_append_left {sep a : List Char} (b : List Char)
    (h : containsSub sep a = true) : containsSub sep (a ++ b) = true := by
  induction a with
  | nil =>
    simp only [containsSub] at h
    have hnil : sep = [] := by
      cases sep with
      | nil => rfl
      | cons x s' => simp [List.isPrefixOf] at h
    subst hnil
    exact prefix_containsSub List.nil_prefix
  | cons c a ih =>
    simp only [containsSub, Bool.or_eq_true] at h ⊢
    rcases h with h | h
    · left
      rw [prefixOf_iff] at h ⊢
      exact h.trans (by simpa [List.cons_append] using List.prefix_append (c :: a) b)
    · right
      exact ih h

theorem containsSub_self (sep : List Char) : containsSub sep sep = true :=
  prefix_containsSub (List.prefix_refl sep)

/-- If `sep` is a prefix of `a ++ c :: b` and the character `c` does not occur
in `sep`, then `sep` is already a prefix of `a`. -/
theorem prefix_split_of_not_mem {sep a b : List Char} {c : Char}
    (hc : c ∉ sep) (h : sep <+: a ++ c :: b) : sep <+: a := by
  by_cases hlen : sep.length ≤ a.length
  · exact List.prefix_of_prefix_length_le h (List.prefix_append a (c :: b)) hlen
  · exfalso
    push_neg at hlen
    have ha : a <+: sep :=
      List.prefix_of_prefix_length_le (List.prefix_append a (c :: b)) h hlen.le
    obtain ⟨s2, hs2⟩ := ha
    obtain ⟨t, ht⟩ := h
    subst hs2
    rw [List.append_assoc] at ht
    have h2 : s2 ++ t = c :: b := List.append_cancel_left ht
    cases s2 with
    | nil => simp at hlen
    | cons x s2' =>
      simp only [List.cons_append] at h2
      injection h2 with h3 h4
      subst h3
      exact hc (List.mem_append_right a (List.mem_cons_self x s2'))

/-- Occurrences of `sep` cannot straddle an occurrence of a character
`c ∉ sep`: searching `a ++ c :: b` reduces to searching `a` and `b`. -/
theorem containsSub_append_cons_iff {sep : List Char} {c : Char} (hc : c ∉ sep)
    (a b : List Char) :
    containsSub sep (a ++ c :: b) = true ↔
      (containsSub sep a = true ∨ containsSub sep b = true) := by
  induction a with
  | nil =>
    simp only [List.nil_append, containsSub, Bool.or_eq_true]
    constructor
    · rintro (h | h)
      · rw [prefixOf_iff] at h
        cases sep with
        | nil => exact Or.inl (by simp [List.isPrefixOf])
        | cons x s' =>
          obtain ⟨t, ht⟩ := h
          simp only [List.cons_append] at ht
          injection ht with h3 h4
          subst h3
          exact absurd (List.mem_cons_self x s') hc
      · exact Or.inr h
    · rintro (h | h)
      · have hnil : sep = [] := by
          cases sep with
          | nil => rfl
          | cons y s' => simp [List.isPrefixOf] at h
        subst hnil
        exact Or.inl (by simp [List.isPrefixOf])
      · exact Or.inr h
  | cons x a' ih =>
    simp only [List.cons_append, containsSub, Bool.or_eq_true] at ih ⊢
    constructor
    · rintro (h | h)
      · rw [prefixOf_iff] at h
        have h2 : sep <+: x :: a' :=
          prefix_split_of_not_mem hc (by simpa [List.cons_append] using h)
        have h3 := prefix_containsSub h2
        simp only [containsSub, Bool.or_eq_true] at h3
        exact Or.inl h3
      · rcases ih.mp h with h' | h'
        · exact Or.inl (Or.inr h')
        · exact Or.inr h'
    · rintro ((h | h) | h)
      · left
        rw [prefixOf_iff] at h ⊢
        exact h.trans (by simpa [List.cons_append] using List.prefix_append (x :: a') (c :: b))
      · right
        exact ih.mpr (Or.inl h)
      · right
        exact ih.mpr (Or.inr h)

theorem splitGo_nil {sep : List Char} (hsep : sep ≠ []) (fuel : Nat) :
    splitGo sep fuel [] = [[]] := by
  cases fuel with
  | zero => rfl
  | succ F =>
    have h : ¬(sep ≠ [] ∧ sep.isPrefixOf ([] : List Char) = true) := by
      intro h
      rw [isPrefixOf_nil_false hsep] at h
      exact Bool.false_ne_true h.2
    rw [splitGo_succ, if_neg h]

theorem splitGo_of_not_contains {sep : List Char} (hsep : sep ≠ []) :
    ∀ fuel s, s.length ≤ fuel → containsSub sep s = false →
      splitGo sep fuel s = [s] := by
  intro fuel
  induction fuel with
  | zero => intro s _ _; rfl
  | succ F ih =>
    intro s hl hcon
    have hpre : sep.isPrefixOf s = false := by
      cases s with
      | nil => simpa [containsSub] using hcon
      | cons c r =>
        simp only [containsSub, Bool.or_eq_false_iff] at hcon
        exact hcon.1
    cases s with
    | nil => exact splitGo_nil hsep _
    | cons c r =>
      have hr : containsSub sep r = false := by
        simp only [containsSub, Bool.or_eq_false_iff] at hcon
        exact hcon.2
      rw [splitGo_cons F hpre, ih r (by simpa using Nat.le_of_succ_le_succ hl) hr]

theorem splitGo_fuel {sep : List Char} (hsep : sep ≠ []) :
    ∀ f g s, s.length ≤ f → s.length ≤ g → splitGo sep f s = splitGo sep g s := by
  intro f
  induction f with
  | zero =>
    intro g s hf _
    have hs : s = [] := List.length_eq_zero.mp (Nat.le_zero.mp hf)
    subst hs
    rw [splitGo_zero, splitGo_nil hsep]
  | succ F ih =>
    intro g s hf hg
    cases g with
    | zero =>
      have hs : s = [] := List.length_eq_zero.mp (Nat.le_zero.mp hg)
      subst hs
      rw [splitGo_zero, splitGo_nil hsep]
    | succ G =>
      by_cases hpre : sep.isPrefixOf s = true
      · rw [splitGo_succ_pos F hsep hpre, splitGo_succ_pos G hsep hpre]
        have hsl : 1 ≤ sep.length := by
          cases sep with
          | nil => exact absurd rfl hsep
          | cons _ _ => simp
        have hd : (s.drop sep.length).length ≤ F := by
          rw [List.length_drop]
          omega
        have hd2 : (s.drop sep.length).length ≤ G := by
          rw [List.length_drop]
          omega
        rw [ih G (s.drop sep.length) hd hd2]
      · have hpre' : sep.isPrefixOf s = false := by
          cases hp : sep.isPrefixOf s
          · rfl
          · exact absurd hp hpre
        cases s with
        | nil => rw [splitGo_nil hsep, splitGo_nil hsep]
        | cons c r =>
          rw [splitGo_cons F hpre', splitGo_cons G hpre',
            ih G r (by simpa using Nat.le_of_succ_le_succ hf)
              (by simpa using Nat.le_of_succ_le_succ hg)]

/-- The separator has no self-overlap: no proper nonempty suffix of `sep` is a
prefix of `sep`.  Both sentinel tokens satisfy this (decidably). -/
abbrev NoSelfOverlap (sep : List Char) : Prop :=
  ∀ k, k < sep.length → 0 < k → ¬ (sep.drop k <+: sep)

theorem splitGo_first {sep : List Char} (hsep : sep ≠ [])
    (hov : NoSelfOverlap sep) :
    ∀ a fuel b, (a ++ sep ++ b).length ≤ fuel → containsSub sep a = false →
      splitGo sep fuel (a ++ sep ++ b) = a :: splitGo sep b.length b := by
  intro a
  induction a with
  | nil =>
    intro fuel b hl _
    simp only [List.nil_append] at hl ⊢
    have hsl : 1 ≤ sep.length := by
      cases sep with
      | nil => exact absurd rfl hsep
      | cons _ _ => simp
    cases fuel with
    | zero =>
      exfalso
      simp only [List.length_append] at hl
      omega
    | succ F =>
      rw [splitGo_succ, if_pos ⟨hsep, prefixOf_iff.mpr (List.prefix_append sep b)⟩]
      rw [List.drop_left]
      have hbF : b.length ≤ F := by
        simp only [List.length_append] at hl
        omega
      rw [splitGo_fuel hsep F b.length b hbF (Nat.le_refl _)]
  | cons x a' ih =>
    intro fuel b hl hcon
    cases fuel with
    | zero =>
      exfalso
      simp only [List.length_append, List.length_cons] at hl
      omega
    | succ F =>
      have hwhole : (x :: a') <+: x :: (a' ++ sep ++ b) := by
        have := List.prefix_append (x :: a') (sep ++ b)
        simpa [List.cons_append, List.append_assoc] using this
      have hpre : sep.isPrefixOf (x :: (a' ++ sep ++ b)) = false := by
        cases hp : sep.isPrefixOf (x :: (a' ++ sep ++ b))
        · rfl
        · exfalso
          rw [prefixOf_iff] at hp
          by_cases hlen : sep.length ≤ (x :: a').length
          · have h2 : sep <+: x :: a' :=
              List.prefix_of_prefix_length_le hp hwhole hlen
            rw [prefix_containsSub h2] at hcon
            simp at hcon
          · push_neg at hlen
            have ha : (x :: a') <+: sep :=
              List.prefix_of_prefix_length_le hwhole hp hlen.le
            obtain ⟨s2, hs2⟩ := ha
            obtain ⟨t, ht⟩ := hp
            have hs2len : s2.length = sep.length - (x :: a').length := by
              have := congrArg List.length hs2
              simp only [List.length_append] at this
              omega
            have hdrop : sep.drop (x :: a').length = s2 := by
              conv_lhs => rw [← hs2]
              exact List.drop_left _ _
            have hst : s2 ++ t = sep ++ b := by
              have h' : (x :: a') ++ (s2 ++ t) = (x :: a') ++ (sep ++ b) := by
                rw [← List.append_assoc, hs2]
                simpa [List.cons_append, List.append_assoc] using ht
              exact List.append_cancel_left h'
            have hs2pre : s2 <+: sep := by
              apply List.prefix_of_prefix_length_le ⟨t, hst⟩ (List.prefix_append sep b)
              omega
            exact hov (x :: a').length (by simpa using hlen) (by simp)
              (hdrop ▸ hs2pre)
      have hcon' : containsSub sep a' = false := by
        simp only [containsSub, Bool.or_eq_false_iff] at hcon
        exact hcon.2
      have hl' : (a' ++ sep ++ b).length ≤ F := by
        simp only [List.length_append, List.length_cons] at hl ⊢
        omega
      simp only [List.cons_append]
      rw [splitGo_cons F hpre, ih F b hl' hcon']

theorem splitOn_of_not_contains {sep s : List Char} (hsep : sep ≠ [])
    (h : containsSub sep s = false) : splitOn sep s = [s] :=
  splitGo_of_not_contains hsep s.length s (Nat.le_refl _) h

theorem splitOn_first {sep a b : List Char} (hsep : sep ≠ [])
    (hov : NoSelfOverlap sep) (hcon : containsSub sep a = false) :
    splitOn sep (a ++ sep ++ b) = a :: splitOn sep b :=
  splitGo_first hsep hov a (a ++ sep ++ b).length b (Nat.le_refl _) hcon

/-! ## JSON values

`Json` models the JSON-serializable Python values that cross the wire
protocol: `None`, booleans, ints, strings, lists and dicts (in insertion
order).  Python floats are outside the model. -/

mutual
inductive Json where
  | null : Json
  | bool (b : Bool) : Json
  | num (n : Int) : Json
  | str (s : List Char) : Json
  | arr (items : JsonArr) : Json
  | obj (items : JsonObj) : Json
  deriving DecidableEq
inductive JsonArr where
  | nil : JsonArr
  | cons (hd : Json) (tl : JsonArr) : JsonArr
  deriving DecidableEq
inductive JsonObj where
  | nil : JsonObj
  | cons (key : List Char) (val : Json) (tl : JsonObj) : JsonObj
  deriving DecidableEq
end

/-! ## `json.dumps` -/

def isJsonWs (c : Char) : Bool := c = ' ' || c = '\t' || c = '\n' || c = '\r'

def skipWs (s : List Char) : List Char := s.dropWhile isJsonWs

/-- The decimal digit characters (`'*'` is an unreachable filler for
arguments `≥ 10`; callers only pass `n % 10` or `n < 10`). -/
def digitChar : Nat → Char
  | 0 => '0' | 1 => '1' | 2 => '2' | 3 => '3' | 4 => '4'
  | 5 => '5' | 6 => '6' | 7 => '7' | 8 => '8' | 9 => '9'
  | _ => '*'

/-- Decimal digits of `n`, most significant first, as produced by Python
`str` on a nonnegative int; fuelled (`fuel > n` is plenty). -/
def natDigitsGo : Nat → Nat → List Char
  | 0, _ => []
  | f+1, n => if n < 10 then [digitChar n] else natDigitsGo f (n / 10) ++ [digitChar (n % 10)]

def natDigits (n : Nat) : List Char := natDigitsGo (n + 1) n

/-- Python `str(i)` for an int, which is also `json.dumps(i)`. -/
def intDumps (i : Int) : List Char :=
  if i < 0 then '-' :: natDigits i.natAbs else natDigits i.natAbs

/-- Lowercase hex digits as emitted by Python's `\uXXXX` escapes. -/
def hexDigitChar : Nat → Char
  | 0 => '0' | 1 => '1' | 2 => '2' | 3 => '3' | 4 => '4'
  | 5 => '5' | 6 => '6' | 7 => '7' | 8 => '8' | 9 => '9'
  | 10 => 'a' | 11 => 'b' | 12 => 'c' | 13 => 'd' | 14 => 'e' | 15 => 'f'
  | _ => '*'

def toHex4 (n : Nat) : List Char :=
  [hexDigitChar (n / 4096 % 16), hexDigitChar (n / 256 % 16),
   hexDigitChar (n / 16 % 16), hexDigitChar (n % 16)]

def fromHexDigit (c : Char) : Option Nat :=
  if c = '0' then some 0 else if c = '1' then some 1
  else if c = '2' then some 2 else if c = '3' then some 3
  else if c = '4' then some 4 else if c = '5' then some 5
  else if c = '6' then some 6 else if c = '7' then some 7
  else if c = '8' then some 8 else if c = '9' then some 9
  else if c = 'a' ∨ c = 'A' then some 10 else if c = 'b' ∨ c = 'B' then some 11
  else if c = 'c' ∨ c = 'C' then some 12 else if c = 'd' ∨ c = 'D' then some 13
  else if c = 'e' ∨ c = 'E' then some 14 else if c = 'f' ∨ c = 'F' then some 15
  else none

def fromHex4 (a b c d : Char) : Option Nat :=
  match fromHexDigit a, fromHexDigit b, fromHexDigit c, fromHexDigit d with
  | some x, some y, some z, some w => some (x * 4096 + y * 256 + z * 16 + w)
  | _, _, _, _ => none

/-- Python `json.dumps` escaping of one string character
(`ensure_ascii=True` default): `"` and `\` get a backslash, the named
control escapes are used where available, any other char outside
`0x20..0x7e` becomes `\uXXXX` (a surrogate pair beyond the BMP). -/
def escapeChar (c : Char) : List Char :=
  if c = '"' then ['\\', '"']
  else if c = '\\' then ['\\', '\\']
  else if c = '\n' then ['\\', 'n']
  else if c = '\t' then ['\\', 't']
  else if c = '\r' then ['\\', 'r']
  else if c = '\x08' then ['\\', 'b']
  else if c = '\x0c' then ['\\', 'f']
  else if c.toNat < 0x20 then '\\' :: 'u' :: toHex4 c.toNat
  else if c.toNat ≤ 0x7e then [c]
  else if c.toNat < 0x10000 then '\\' :: 'u' :: toHex4 c.toNat
  else
    '\\' :: 'u' :: toHex4 (0xD800 + (c.toNat - 0x10000) / 0x400) ++
      ('\\' :: 'u' :: toHex4 (0xDC00 + (c.toNat - 0x10000) % 0x400))

def escapeString : List Char → List Char
  | [] => []
  | c :: r => escapeChar c ++ escapeString r

mutual
/-- Python `json.dumps` with its default separators `", "` and `": "`. -/
def dumpsVal : Json → List Char
  | .null => 'n' :: ('u' :: ('l' :: 'l' :: []))
  | .bool true => 't' :: ('r' :: ('u' :: 'e' :: []))
  | .bool false => 'f' :: ('a' :: 'l' :: ('s' :: 'e' :: []))
  | .num n => intDumps n
  | .str s => '"' :: (escapeString s ++ ['"'])
  | .arr items => '[' :: (dumpsArr items ++ [']'])
  | .obj items => '{' :: (dumpsObj items ++ ['}'])
def dumpsArr : JsonArr → List Char
  | .nil => []
  | .cons x .nil => dumpsVal x
  | .cons x (.cons y t) => dumpsVal x ++ (',' :: ' ' :: dumpsArr (.cons y t))
def dumpsObj : JsonObj → List Char
  | .nil => []
  | .cons k v .nil => '"' :: (escapeString k ++ ('"' :: ':' :: ' ' :: dumpsVal v))
  | .cons k v (.cons k2 v2 t) =>
    '"' :: (escapeString k ++ ('"' :: ':' :: ' ' :: dumpsVal v)) ++
      (',' :: ' ' :: dumpsObj (.cons k2 v2 t))
end

/-! ## `json.loads`

A strict recursive-descent parser following CPython's `json.decoder`.
Two deliberate restrictions, both outside anything `json.dumps` can emit
for modelled values: number syntax with a fraction or exponent (a Python
float) is rejected rather than parsed, and a lone surrogate `\uXXXX`
escape is rejected (Lean `Char` cannot hold it; CPython would produce a
lone-surrogate `str`). -/

def escDecode (c : Char) : Option Char :=
  if c = '"' then some '"'
  else if c = '\\' then some '\\'
  else if c = '/' then some '/'
  else if c = 'n' then some '\n'
  else if c = 't' then some '\t'
  else if c = 'r' then some '\r'
  else if c = 'b' then some '\x08'
  else if c = 'f' then some '\x0c'
  else none

/-- Continuation of `decodeU` after a high surrogate `n`: expects a
`\uXXXX` low surrogate and combines the pair. -/
def decodeULow (n : Nat) (r3 : List Char) : Option (Char × List Char) :=
  match r3 with
  | e2 :: u2 :: a2 :: b2 :: c3 :: d2 :: r4 =>
    if e2 = '\\' ∧ u2 = 'u' then
      match fromHex4 a2 b2 c3 d2 with
      | none => none
      | some m =>
        if 56320 ≤ m ∧ m < 57344 then
          some (Char.ofNat (65536 + (n - 55296) * 1024 + (m - 56320)), r4)
        else none
    else none
  | _ => none

/-- Decode one `\uXXXX` escape (the backslash and `u` already consumed),
combining a high/low surrogate pair into one character as CPython's
decoder does. -/
def decodeU (r2 : List Char) : Option (Char × List Char) :=
  match r2 with
  | a :: b :: c2 :: d :: r3 =>
    match fromHex4 a b c2 d with
    | none => none
    | some n =>
      if 55296 ≤ n ∧ n < 56320 then decodeULow n r3
      else if 56320 ≤ n ∧ n < 57344 then none
      else some (Char.ofNat n, r3)
  | _ => none

def parseStrGo : Nat → List Char → Option (List Char × List Char)
  | 0, _ => none
  | f+1, s =>
    match s with
    | [] => none
    | c :: r =>
      if c = '"' then some ([], r)
      else if c = '\\' then
        match r with
        | [] => none
        | e :: r2 =>
          if e = 'u' then
            match decodeU r2 with
            | none => none
            | some (ch, r3) =>
              match parseStrGo f r3 with
              | some (cs, rest) => some (ch :: cs, rest)
              | none => none
          else
            match escDecode e with
            | none => none
            | some ch =>
              match parseStrGo f r2 with
              | some (cs, rest) => some (ch :: cs, rest)
              | none => none
      else if c.toNat < 0x20 then none
      else
        match parseStrGo f r with
        | some (cs, rest) => some (c :: cs, rest)
        | none => none

def digitVal (c : Char) : Nat := c.toNat - 48

def parseDigitsRun (s : List Char) : Option (Nat × List Char) :=
  let d := s.takeWhile Char.isDigit
  if d = [] then none
  else some (d.foldl (fun a c => 10 * a + digitVal c) 0, s.dropWhile Char.isDigit)

/-- Rejects the start of a fraction or exponent: the number would be a
Python float, which the model does not cover. -/
def numFollowOk : List Char → Bool
  | c :: _ => !(c = '.' || c = 'e' || c = 'E')
  | [] => true

def parseNumber (s : List Char) : Option (Int × List Char) :=
  match s with
  | [] => none
  | c :: r =>
    if c = '-' then
      match parseDigitsRun r with
      | some (n, r2) => if numFollowOk r2 then some (-(n : Int), r2) else none
      | none => none
    else
      match parseDigitsRun (c :: r) with
      | some (n, r2) => if numFollowOk r2 then some ((n : Int), r2) else none
      | none => none

/-- Strip an expected literal prefix (used for `null`, `true`, `false`). -/
def dropPrefixQ : List Char → List Char → Option (List Char)
  | [], s => some s
  | _ :: _, [] => none
  | p :: ps, c :: cs => if c = p then dropPrefixQ ps cs else none

mutual
def parseVal : Nat → List Char → Option (Json × List Char)
  | 0, _ => none
  | F+1, s =>
    match s with
    | [] => none
    | c :: r =>
      if c = 'n' then
        match dropPrefixQ ['u', 'l', 'l'] r with
        | some r2 => some (.null, r2)
        | none => none
      else if c = 't' then
        match dropPrefixQ ['r', 'u', 'e'] r with
        | some r2 => some (.bool true, r2)
        | none => none
      else if c = 'f' then
        match dropPrefixQ ['a', 'l', 's', 'e'] r with
        | some r2 => some (.bool false, r2)
        | none => none
      else if c = '"' then
        match parseStrGo (r.length + 1) r with
        | some (cs, r2) => some (.str cs, r2)
        | none => none
      else if c = '[' then
        match skipWs r with
        | [] => none
        | c2 :: r2 =>
          if c2 = ']' then some (.arr .nil, r2)
          else
            match parseArrItems F (c2 :: r2) with
            | some (items, r3) => some (.arr items, r3)
            | none => none
      else if c = '{' then
        match skipWs r with
        | [] => none
        | c2 :: r2 =>
          if c2 = '}' then some (.obj .nil, r2)
          else
            match parseObjItems F (c2 :: r2) with
            | some (items, r3) => some (.obj items, r3)
            | none => none
      else if c = '-' || c.isDigit then
        match parseNumber (c :: r) with
        | some (n, r2) => some (.num n, r2)
        | none => none
      else none
def parseArrItems : Nat → List Char → Option (JsonArr × List Char)
  | 0, _ => none
  | F+1, s =>
    match parseVal F s with
    | none => none
    | some (v, r) =>
      match skipWs r with
      | [] => none
      | c :: r2 =>
        if c = ']' then some (.cons v .nil, r2)
        else if c = ',' then
          match parseArrItems F (skipWs r2) with
          | some (vs, r3) => some (.cons v vs, r3)
          | none => none
        else none
def parseObjItems : Nat → List Char → Option (JsonObj × List Char)
  | 0, _ => none
  | F+1, s =>
    match s with
    | [] => none
    | c :: r =>
      if c = '"' then
        match parseStrGo (r.length + 1) r with
        | none => none
        | some (k, r1) =>
          match skipWs r1 with
          | [] => none
          | c2 :: r2 =>
            if c2 = ':' then
              match parseVal F (skipWs r2) with
              | none => none
              | some (v, r3) =>
                match skipWs r3 with
                | [] => none
                | c3 :: r4 =>
                  if c3 = '}' then some (.cons k v .nil, r4)
                  else if c3 = ',' then
                    match parseObjItems F (skipWs r4) with
                    | some (kvs, r5) => some (.cons k v kvs, r5)
                    | none => none
                  else none
            else none
      else none
end

/-- Python `json.loads`: skip surrounding whitespace, parse one value, and
require nothing but whitespace after it. -/
def jloads (s : List Char) : Option Json :=
  match parseVal (2 * s.length + 2) (skipWs s) with
  | some (v, r) => if skipWs r = [] then some v else none
  | none => none

/-! ## The sentinel wire protocol -/

def startTok : List Char := S "<$output>"

def endTok : List Char := S "</$output>"

/-- The two failure modes of
`out.split("<$output>")[1].split("</$output>")[0]` + `json.loads`:
`missingSpan` is the `IndexError` when the first split has no element `1`,
`invalidJson` the `json.JSONDecodeError`.  The spec surfaces both as
`ProtocolError`. -/
inductive DecodeErr where
  | missingSpan : DecodeErr
  | invalidJson : DecodeErr
  deriving DecidableEq

/-- `CodeExecutorService` result decoding, scripty
`run_code_with_inputs` lines 146-148 and maketools `execute_code` lines
180-182 (identical logic, default tokens). -/
def decodeOutput (out : List Char) : Except DecodeErr Json :=
  match splitOn startTok out with
  | _ :: second :: _ =>
    match jloads ((splitOn endTok second).headD []) with
    | some v => .ok v
    | none => .error .invalidJson
  | _ => .error .missingSpan

/-- Stdout produced by the scripty `CODE_WRAPPER_TEMPLATE` postamble:
`print('<$output>')`, `print(output)` (already dumped), `print('</$output>')`. -/
def encodeScripty (payload : List Char) : List Char :=
  startTok ++ '\n' :: (payload ++ '\n' :: (endTok ++ ['\n']))

/-- Stdout produced by the maketools `CODE_WRAPPER_TEMPLATE` postamble:
`print('<$output>', json.dumps(...), '</$output>')` (space-separated, one
trailing newline). -/
def encodeMaketools (payload : List Char) : List Char :=
  startTok ++ ' ' :: (payload ++ ' ' :: (endTok ++ ['\n']))

/-! ## Round-trip lemmas: digits and numbers -/

theorem digitVal_digitChar : ∀ k, k < 10 → digitVal (digitChar k) = k := by decide

theorem digitChar_isDigit : ∀ k, k < 10 → (digitChar k).isDigit = true := by decide

theorem natDigitsGo_fuel : ∀ f g n, n < f → n < g → natDigitsGo f n = natDigitsGo g n := by
  intro f
  induction f with
  | zero => intro g n hf _; omega
  | succ F ih =>
    intro g n hf hg
    cases g with
    | zero => omega
    | succ G =>
      show natDigitsGo (F+1) n = natDigitsGo (G+1) n
      by_cases h10 : n < 10
      · simp [natDigitsGo, h10]
      · have hrec : n / 10 < n := Nat.div_lt_self (by omega) (by omega)
        simp only [natDigitsGo, if_neg h10]
        rw [ih G (n / 10) (by omega) (by omega)]

theorem natDigits_lt10 {n : Nat} (h : n < 10) : natDigits n = [digitChar n] := by
  simp [natDigits, natDigitsGo, h]

theorem natDigits_ge10 {n : Nat} (h : 10 ≤ n) :
    natDigits n = natDigits (n / 10) ++ [digitChar (n % 10)] := by
  have hrec : n / 10 < n := Nat.div_lt_self (by omega) (by omega)
  show natDigitsGo (n+1) n = _
  rw [natDigitsGo, if_neg (by omega)]
  rw [natDigitsGo_fuel n (n / 10 + 1) (n / 10) (by omega) (by omega)]
  rfl

theorem natDigits_ne_nil (n : Nat) : natDigits n ≠ [] := by
  induction n using Nat.strong_induction_on with
  | _ n ih =>
    by_cases h : n < 10
    · rw [natDigits_lt10 h]; simp
    · rw [natDigits_ge10 (by omega)]; simp

theorem natDigits_all_digit (m : Nat) : ∀ c ∈ natDigits m, c.isDigit = true := by
  induction m using Nat.strong_induction_on with
  | _ m IH =>
    by_cases h : m < 10
    · rw [natDigits_lt10 h]
      intro c hc
      simp at hc
      subst hc
      exact digitChar_isDigit m h
    · rw [natDigits_ge10 (by omega)]
      intro c hc
      rw [List.mem_append] at hc
      rcases hc with hc | hc
      · have hlt : m / 10 < m := Nat.div_lt_self (by omega) (by decide)
        exact IH (m / 10) hlt c hc
      · simp at hc
        subst hc
        exact digitChar_isDigit (m % 10) (Nat.mod_lt m (by omega))

theorem natDigits_foldl (n : Nat) :
    (natDigits n).foldl (fun a c => 10 * a + digitVal c) 0 = n := by
  induction n using Nat.strong_induction_on with
  | _ n ih =>
    by_cases h : n < 10
    · rw [natDigits_lt10 h]
      simp [digitVal_digitChar n h]
    · rw [natDigits_ge10 (by omega), List.foldl_append]
      rw [ih (n / 10) (Nat.div_lt_self (by omega) (by omega))]
      simp [digitVal_digitChar (n % 10) (Nat.mod_lt n (by omega))]
      omega

theorem takeWhile_append_of {p : Char → Bool} {l rest : List Char}
    (hl : ∀ c ∈ l, p c = true) (hrest : ∀ c, rest.head? = some c → p c = false) :
    (l ++ rest).takeWhile p = l ∧ (l ++ rest).dropWhile p = rest := by
  induction l with
  | nil =>
    simp only [List.nil_append]
    cases rest with
    | nil => simp
    | cons c r =>
      have := hrest c rfl
      simp [List.takeWhile, List.dropWhile, this]
  | cons x l' ih =>
    have hx : p x = true := hl x (List.mem_cons_self x l')
    have ih' := ih (fun c hc => hl c (List.mem_cons_of_mem x hc))
    simp [List.takeWhile, List.dropWhile, hx, ih'.1, ih'.2]

/-- What may legally follow a serialized value so that the (greedy) number
parser is not disturbed: not a digit and not the start of a fraction or
exponent.  Every separator and closer of the JSON syntax qualifies. -/
def GoodFollow (rest : List Char) : Prop :=
  ∀ c, rest.head? = some c →
    (c.isDigit = false ∧ (c ≠ '.') ∧ (c ≠ 'e') ∧ (c ≠ 'E'))

theorem parseDigitsRun_natDigits {rest : List Char} (n : Nat)
    (hrest : ∀ c, rest.head? = some c → c.isDigit = false) :
    parseDigitsRun (natDigits n ++ rest) = some (n, rest) := by
  have h := takeWhile_append_of (natDigits_all_digit n) hrest
  rw [parseDigitsRun]
  simp only [h.1, h.2]
  rw [if_neg (natDigits_ne_nil n)]
  rw [natDigits_foldl]

theorem numFollowOk_of_good {rest : List Char} (h : GoodFollow rest) :
    numFollowOk rest = true := by
  cases rest with
  | nil => rfl
  | cons c r =>
    obtain ⟨_, h2, h3, h4⟩ := h c rfl
    simp [numFollowOk, h2, h3, h4]

theorem isDigit_ne_minus {c : Char} (h : c.isDigit = true) : c ≠ '-' := by
  intro he
  subst he
  simp at h

theorem parseNumber_intDumps {rest : List Char} (i : Int) (hrest : GoodFollow rest) :
    parseNumber (intDumps i ++ rest) = some (i, rest) := by
  have hd : ∀ c, rest.head? = some c → c.isDigit = false :=
    fun c hc => (hrest c hc).1
  have hfol := numFollowOk_of_good hrest
  by_cases hneg : i < 0
  · rw [intDumps, if_pos hneg]
    have h1 : parseNumber (('-' :: natDigits i.natAbs) ++ rest) =
        match parseDigitsRun (natDigits i.natAbs ++ rest) with
        | some (n, r2) => if numFollowOk r2 then some (-(n : Int), r2) else none
        | none => none := rfl
    rw [h1, parseDigitsRun_natDigits i.natAbs hd]
    simp only [hfol, if_true]
    have h2 : -((i.natAbs : Int)) = i := by omega
    rw [h2]
  · rw [intDumps, if_neg hneg]
    obtain ⟨c, t, hct⟩ : ∃ c t, natDigits i.natAbs = c :: t := by
      cases hh : natDigits i.natAbs with
      | nil => exact absurd hh (natDigits_ne_nil _)
      | cons c t => exact ⟨c, t, rfl⟩
    have hdig : c.isDigit = true :=
      natDigits_all_digit i.natAbs c (hct ▸ List.mem_cons_self c t)
    rw [hct]
    have h1 : parseNumber ((c :: t) ++ rest) =
        if c = '-' then
          match parseDigitsRun (t ++ rest) with
          | some (n, r2) => if numFollowOk r2 then some (-(n : Int), r2) else none
          | none => none
        else
          match parseDigitsRun (c :: (t ++ rest)) with
          | some (n, r2) => if numFollowOk r2 then some ((n : Int), r2) else none
          | none => none := rfl
    rw [h1, if_neg (isDigit_ne_minus hdig)]
    have h2 : c :: (t ++ rest) = natDigits i.natAbs ++ rest := by
      rw [hct]
      rfl
    rw [h2, parseDigitsRun_natDigits i.natAbs hd]
    simp only [hfol, if_true]
    have h3 : ((i.natAbs : Int)) = i := by omega
    rw [h3]

/-! ## Round-trip lemmas: strings -/

theorem fromHexDigit_hexDigitChar : ∀ k, k < 16 → fromHexDigit (hexDigitChar k) = some k := by
  decide

theorem fromHex4_toHex4 (n : Nat) (h : n < 65536) :
    fromHex4 (hexDigitChar (n / 4096 % 16)) (hexDigitChar (n / 256 % 16))
      (hexDigitChar (n / 16 % 16)) (hexDigitChar (n % 16)) = some n := by
  have h1 := fromHexDigit_hexDigitChar (n / 4096 % 16) (by omega)
  have h2 := fromHexDigit_hexDigitChar (n / 256 % 16) (by omega)
  have h3 := fromHexDigit_hexDigitChar (n / 16 % 16) (by omega)
  have h4 := fromHexDigit_hexDigitChar (n % 16) (by omega)
  simp only [fromHex4, h1, h2, h3, h4]
  exact congrArg some (by omega)

theorem char_toNat_eq (c : Char) : c.toNat = c.val.toNat := rfl

theorem char_toNat_lt (c : Char) : c.toNat < 1114112 := by
  have hv := c.valid
  rcases hv with h | ⟨h1, h2⟩ <;> (rw [char_toNat_eq]; omega)

theorem char_not_surrogate (c : Char) : ¬(55296 ≤ c.toNat ∧ c.toNat < 57344) := by
  have hv := c.valid
  rcases hv with h | ⟨h1, h2⟩ <;> (rw [char_toNat_eq]; omega)

theorem decodeU_step (a b c2 d : Char) (r3 : List Char) :
    decodeU (a :: b :: c2 :: d :: r3) =
      match fromHex4 a b c2 d with
      | none => none
      | some n =>
        if 55296 ≤ n ∧ n < 56320 then decodeULow n r3
        else if 56320 ≤ n ∧ n < 57344 then none
        else some (Char.ofNat n, r3) := rfl

theorem decodeU_bmp {rest : List Char} (n : Nat) (hn : n < 65536)
    (hs : ¬(55296 ≤ n ∧ n < 57344)) :
    decodeU (toHex4 n ++ rest) = some (Char.ofNat n, rest) := by
  simp only [toHex4, List.cons_append, List.nil_append]
  rw [decodeU_step]
  simp only [fromHex4_toHex4 n hn]
  rw [if_neg (by omega), if_neg (by omega)]

theorem decodeULow_step (n : Nat) (a2 b2 c3 d2 : Char) (r4 : List Char) :
    decodeULow n ('\\' :: 'u' :: a2 :: b2 :: c3 :: d2 :: r4) =
      match fromHex4 a2 b2 c3 d2 with
      | none => none
      | some m =>
        if 56320 ≤ m ∧ m < 57344 then
          some (Char.ofNat (65536 + (n - 55296) * 1024 + (m - 56320)), r4)
        else none := by
  rw [decodeULow, if_pos ⟨rfl, rfl⟩]

theorem decodeU_pair {rest : List Char} (c : Char) (hc : 65536 ≤ c.toNat) :
    decodeU (toHex4 (55296 + (c.toNat - 65536) / 1024) ++
      ('\\' :: 'u' :: (toHex4 (56320 + (c.toNat - 65536) % 1024) ++ rest))) =
      some (c, rest) := by
  have hlt := char_toNat_lt c
  have hhi : 55296 + (c.toNat - 65536) / 1024 < 65536 := by omega
  have hlo : 56320 + (c.toNat - 65536) % 1024 < 65536 := by
    have := Nat.mod_lt (c.toNat - 65536) (show 0 < 1024 by omega)
    omega
  simp only [toHex4, List.cons_append, List.nil_append]
  rw [decodeU_step]
  simp only [fromHex4_toHex4 _ hhi]
  rw [if_pos (by constructor <;> omega)]
  rw [decodeULow_step]
  simp only [fromHex4_toHex4 _ hlo]
  rw [if_pos (by constructor <;> omega)]
  have harith : 65536 + ((55296 + (c.toNat - 65536) / 1024) - 55296) * 1024 +
      ((56320 + (c.toNat - 65536) % 1024) - 56320) = c.toNat := by
    have := Nat.div_add_mod (c.toNat - 65536) 1024
    omega
  rw [harith, Char.ofNat_toNat]

theorem parseStrGo_u_step (f : Nat) (w : List Char) :
    parseStrGo (f+1) ('\\' :: 'u' :: w) =
      match decodeU w with
      | none => none
      | some (ch, r3) =>
        match parseStrGo f r3 with
        | some (cs, rest) => some (ch :: cs, rest)
        | none => none := rfl

theorem parseStrGo_cons_step (f : Nat) (c : Char) (r : List Char) :
    parseStrGo (f+1) (c :: r) =
      if c = '"' then some ([], r)
      else if c = '\\' then
        match r with
        | [] => none
        | e :: r2 =>
          if e = 'u' then
            match decodeU r2 with
            | none => none
            | some (ch, r3) =>
              match parseStrGo f r3 with
              | some (cs, rest) => some (ch :: cs, rest)
              | none => none
          else
            match escDecode e with
            | none => none
            | some ch =>
              match parseStrGo f r2 with
              | some (cs, rest) => some (ch :: cs, rest)
              | none => none
      else if c.toNat < 32 then none
      else
        match parseStrGo f r with
        | some (cs, rest) => some (c :: cs, rest)
        | none => none := rfl

theorem parseStrGo_escapeChar (c : Char) (f : Nat) (rest : List Char) :
    parseStrGo (f+1) (escapeChar c ++ rest) =
      match parseStrGo f rest with
      | some (cs, r) => some (c :: cs, r)
      | none => none := by
  by_cases h1 : c = '"'
  · subst h1; rfl
  by_cases h2 : c = '\\'
  · subst h2; rfl
  by_cases h3 : c = '\n'
  · subst h3; rfl
  by_cases h4 : c = '\t'
  · subst h4; rfl
  by_cases h5 : c = '\r'
  · subst h5; rfl
  by_cases h6 : c = '\x08'
  · subst h6; rfl
  by_cases h7 : c = '\x0c'
  · subst h7; rfl
  by_cases h8 : c.toNat < 32
  · have he : escapeChar c = '\\' :: 'u' :: toHex4 c.toNat := by
      rw [escapeChar, if_neg h1, if_neg h2, if_neg h3, if_neg h4, if_neg h5,
        if_neg h6, if_neg h7, if_pos h8]
    rw [he]
    simp only [List.cons_append]
    rw [parseStrGo_u_step, decodeU_bmp c.toNat (by omega) (by omega)]
    simp only [Char.ofNat_toNat]
  by_cases h9 : c.toNat ≤ 126
  · have he : escapeChar c = [c] := by
      rw [escapeChar, if_neg h1, if_neg h2, if_neg h3, if_neg h4, if_neg h5,
        if_neg h6, if_neg h7, if_neg h8, if_pos h9]
    rw [he]
    simp only [List.singleton_append]
    rw [parseStrGo_cons_step, if_neg h1, if_neg h2, if_neg h8]
  by_cases h10 : c.toNat < 65536
  · have he : escapeChar c = '\\' :: 'u' :: toHex4 c.toNat := by
      rw [escapeChar, if_neg h1, if_neg h2, if_neg h3, if_neg h4, if_neg h5,
        if_neg h6, if_neg h7, if_neg h8, if_neg h9, if_pos h10]
    rw [he]
    simp only [List.cons_append]
    rw [parseStrGo_u_step, decodeU_bmp c.toNat h10 (char_not_surrogate c)]
    simp only [Char.ofNat_toNat]
  · have he : escapeChar c = '\\' :: 'u' :: toHex4 (55296 + (c.toNat - 65536) / 1024) ++
        ('\\' :: 'u' :: toHex4 (56320 + (c.toNat - 65536) % 1024)) := by
      rw [escapeChar, if_neg h1, if_neg h2, if_neg h3, if_neg h4, if_neg h5,
        if_neg h6, if_neg h7, if_neg h8, if_neg h9, if_neg h10]
    rw [he]
    simp only [List.cons_append, List.append_assoc]
    rw [parseStrGo_u_step, decodeU_pair c (by omega)]

theorem parseStrGo_escapeString (s : List Char) :
    ∀ f rest, s.length + 1 ≤ f →
      parseStrGo f (escapeString s ++ ('"' :: rest)) = some (s, rest) := by
  induction s with
  | nil =>
    intro f rest hf
    cases f with
    | zero => omega
    | succ g => rfl
  | cons c s' ih =>
    intro f rest hf
    cases f with
    | zero => omega
    | succ g =>
      have hes : escapeString (c :: s') ++ ('"' :: rest) =
          escapeChar c ++ (escapeString s' ++ ('"' :: rest)) := by
        simp [escapeString, List.append_assoc]
      rw [hes, parseStrGo_escapeChar]
      rw [ih g rest (by simp at hf; omega)]

/-! ## Round-trip lemmas: whitespace, heads, fuel -/

theorem skipWs_not_ws {s : List Char}
    (h : ∀ c, s.head? = some c → isJsonWs c = false) : skipWs s = s := by
  cases s with
  | nil => rfl
  | cons c r =>
    have := h c rfl
    simp [skipWs, List.dropWhile, this]

theorem skipWs_cons_ws {c : Char} (hc : isJsonWs c = true) (s : List Char) :
    skipWs (c :: s) = skipWs s := by
  simp [skipWs, List.dropWhile, hc]

theorem skipWs_append_ws {w : List Char} (hw : ∀ c ∈ w, isJsonWs c = true)
    (t : List Char) : skipWs (w ++ t) = skipWs t := by
  induction w with
  | nil => rfl
  | cons c w' ih =>
    rw [List.cons_append, skipWs_cons_ws (hw c (List.mem_cons_self c w'))]
    exact ih (fun c' hc' => hw c' (List.mem_cons_of_mem c hc'))

theorem skipWs_all_ws {w : List Char} (hw : ∀ c ∈ w, isJsonWs c = true) :
    skipWs w = [] := by
  have := skipWs_append_ws hw []
  simpa using this

set_option maxHeartbeats 1000000 in
theorem escapeChar_length_pos (c : Char) : 1 ≤ (escapeChar c).length := by
  rw [escapeChar]
  split_ifs <;> simp [toHex4]

theorem escapeString_length (s : List Char) : s.length ≤ (escapeString s).length := by
  induction s with
  | nil => simp [escapeString]
  | cons c s' ih =>
    have := escapeChar_length_pos c
    simp only [escapeString, List.length_append, List.length_cons]
    omega

theorem isDigit_range {c : Char} (h : c.isDigit = true) :
    48 ≤ c.toNat ∧ c.toNat ≤ 57 := by
  simp [Char.isDigit] at h
  exact h

theorem isDigit_facts {c : Char} (h : c.isDigit = true) :
    isJsonWs c = false ∧ (c ≠ ']') ∧ c ≠ '}' ∧ (c ≠ 'n') ∧ c ≠ 't' ∧ (c ≠ 'f') ∧
      c ≠ '"' ∧ (c ≠ '[') ∧ c ≠ '{' := by
  have key : ∀ d : Char, d.isDigit = false → c ≠ d := by
    intro d hd he
    subst he
    rw [h] at hd
    cases hd
  have h1 : c ≠ ' ' := key ' ' (by decide)
  have h2 : c ≠ '\t' := key '\t' (by decide)
  have h3 : c ≠ '\n' := key '\n' (by decide)
  have h4 : c ≠ '\r' := key '\r' (by decide)
  exact ⟨by simp [isJsonWs, h1, h2, h3, h4], key ']' (by decide), key '}' (by decide),
    key 'n' (by decide), key 't' (by decide), key 'f' (by decide),
    key '"' (by decide), key '[' (by decide), key '{' (by decide)⟩

/-- The first character of a serialized value: never whitespace, never a
closer, and it identifies the construct for the parser's dispatch. -/
theorem dumpsVal_cons (v : Json) :
    ∃ c t, dumpsVal v = c :: t ∧ isJsonWs c = false ∧ c ≠ ']' ∧ c ≠ '}' := by
  cases v with
  | null => exact ⟨'n', _, rfl, of_decide_eq_true rfl⟩
  | bool b =>
    cases b
    · exact ⟨'f', _, rfl, of_decide_eq_true rfl⟩
    · exact ⟨'t', _, rfl, of_decide_eq_true rfl⟩
  | num n =>
    show ∃ c t, intDumps n = c :: t ∧ _
    by_cases hneg : n < 0
    · exact ⟨'-', natDigits n.natAbs, by rw [intDumps, if_pos hneg], by decide⟩
    · obtain ⟨c, t, hct⟩ : ∃ c t, natDigits n.natAbs = c :: t := by
        cases hh : natDigits n.natAbs with
        | nil => exact absurd hh (natDigits_ne_nil _)
        | cons c t => exact ⟨c, t, rfl⟩
      have hdig : c.isDigit = true :=
        natDigits_all_digit n.natAbs c (hct ▸ List.mem_cons_self c t)
      obtain ⟨hw, hr, hb, _⟩ := isDigit_facts hdig
      exact ⟨c, t, by rw [intDumps, if_neg hneg, hct], hw, hr, hb⟩
  | str s => exact ⟨'"', _, rfl, of_decide_eq_true rfl⟩
  | arr items => exact ⟨'[', _, rfl, of_decide_eq_true rfl⟩
  | obj items => exact ⟨'{', _, rfl, of_decide_eq_true rfl⟩

theorem dumpsArr_cons_head (x : Json) (t : JsonArr) :
    ∃ c tl, dumpsArr (.cons x t) = c :: tl ∧ isJsonWs c = false ∧ c ≠ ']' ∧ c ≠ '}' := by
  obtain ⟨c, tl, h, hw, h1, h2⟩ := dumpsVal_cons x
  cases t with
  | nil => exact ⟨c, tl, h, hw, h1, h2⟩
  | cons y t' =>
    refine ⟨c, tl ++ (',' :: ' ' :: dumpsArr (.cons y t')), ?_, hw, h1, h2⟩
    show dumpsVal x ++ (',' :: ' ' :: dumpsArr (.cons y t')) = _
    rw [h]
    rfl

mutual
/-- Fuel measure: `parseVal fuel` succeeds on `dumpsVal v ++ rest` whenever
`jfuel v ≤ fuel` (proved below). -/
def jfuel : Json → Nat
  | .arr items => 1 + jfuelArr items
  | .obj items => 1 + jfuelObj items
  | _ => 1
def jfuelArr : JsonArr → Nat
  | .nil => 1
  | .cons x t => 1 + jfuel x + jfuelArr t
def jfuelObj : JsonObj → Nat
  | .nil => 1
  | .cons _ v t => 1 + jfuel v + jfuelObj t
end

mutual
theorem jfuel_pos (v : Json) : 0 < jfuel v := by
  cases v <;> simp [jfuel]
theorem jfuelArr_pos (a : JsonArr) : 0 < jfuelArr a := by
  cases a <;> simp [jfuelArr]
theorem jfuelObj_pos (o : JsonObj) : 0 < jfuelObj o := by
  cases o <;> simp [jfuelObj]
end

theorem goodFollow_cons {c : Char}
    (h : c.isDigit = false ∧ (c ≠ '.') ∧ (c ≠ 'e') ∧ (c ≠ 'E')) (rest : List Char) :
    GoodFollow (c :: rest) := by
  intro c' hc'
  simp only [List.head?] at hc'
  injection hc' with hh
  subst hh
  exact h

theorem goodFollow_rbrack (rest : List Char) : GoodFollow (']' :: rest) :=
  goodFollow_cons (by decide) rest

theorem goodFollow_rbrace (rest : List Char) : GoodFollow ('}' :: rest) :=
  goodFollow_cons (by decide) rest

theorem goodFollow_comma (rest : List Char) : GoodFollow (',' :: rest) :=
  goodFollow_cons (by decide) rest

/-! ## Parser step equations (all definitional) -/

theorem head_not_ws {c : Char} {X : List Char} (hws : isJsonWs c = false) :
    ∀ c', (c :: X).head? = some c' → isJsonWs c' = false := by
  intro c' h
  simp only [List.head?] at h
  injection h with h
  exact h ▸ hws

theorem parseVal_zero (s : List Char) : parseVal 0 s = none := rfl

theorem parseVal_null_step (F : Nat) (rest : List Char) :
    parseVal (F+1) (('n' :: ('u' :: ('l' :: 'l' :: []))) ++ rest) = some (.null, rest) := by rfl

theorem parseVal_true_step (F : Nat) (rest : List Char) :
    parseVal (F+1) (('t' :: ('r' :: ('u' :: 'e' :: []))) ++ rest) = some (.bool true, rest) := by rfl

theorem parseVal_false_step (F : Nat) (rest : List Char) :
    parseVal (F+1) (('f' :: ('a' :: 'l' :: ('s' :: 'e' :: []))) ++ rest) = some (.bool false, rest) := by rfl

theorem parseVal_minus_step (F : Nat) (r : List Char) :
    parseVal (F+1) ('-' :: r) =
      match parseNumber ('-' :: r) with
      | some (n, r2) => some (.num n, r2)
      | none => none := rfl

theorem parseVal_quote_step (F : Nat) (r : List Char) :
    parseVal (F+1) ('"' :: r) =
      match parseStrGo (r.length + 1) r with
      | some (cs, r2) => some (.str cs, r2)
      | none => none := rfl

theorem parseVal_lbrack_step (F : Nat) (r : List Char) :
    parseVal (F+1) ('[' :: r) =
      match skipWs r with
      | [] => none
      | c2 :: r2 =>
        if c2 = ']' then some (.arr .nil, r2)
        else
          match parseArrItems F (c2 :: r2) with
          | some (items, r3) => some (.arr items, r3)
          | none => none := rfl

theorem parseVal_lbrace_step (F : Nat) (r : List Char) :
    parseVal (F+1) ('{' :: r) =
      match skipWs r with
      | [] => none
      | c2 :: r2 =>
        if c2 = '}' then some (.obj .nil, r2)
        else
          match parseObjItems F (c2 :: r2) with
          | some (items, r3) => some (.obj items, r3)
          | none => none := rfl

theorem parseVal_cons_full (F : Nat) (c : Char) (r : List Char) :
    parseVal (F+1) (c :: r) =
      if c = 'n' then
        match dropPrefixQ ['u', 'l', 'l'] r with
        | some r2 => some (.null, r2)
        | none => none
      else if c = 't' then
        match dropPrefixQ ['r', 'u', 'e'] r with
        | some r2 => some (.bool true, r2)
        | none => none
      else if c = 'f' then
        match dropPrefixQ ['a', 'l', 's', 'e'] r with
        | some r2 => some (.bool false, r2)
        | none => none
      else if c = '"' then
        match parseStrGo (r.length + 1) r with
        | some (cs, r2) => some (.str cs, r2)
        | none => none
      else if c = '[' then
        match skipWs r with
        | [] => none
        | c2 :: r2 =>
          if c2 = ']' then some (.arr .nil, r2)
          else
            match parseArrItems F (c2 :: r2) with
            | some (items, r3) => some (.arr items, r3)
            | none => none
      else if c = '{' then
        match skipWs r with
        | [] => none
        | c2 :: r2 =>
          if c2 = '}' then some (.obj .nil, r2)
          else
            match parseObjItems F (c2 :: r2) with
            | some (items, r3) => some (.obj items, r3)
            | none => none
      else if c = '-' || c.isDigit then
        match parseNumber (c :: r) with
        | some (n, r2) => some (.num n, r2)
        | none => none
      else none := rfl

theorem parseArrItems_step (F : Nat) (s : List Char) :
    parseArrItems (F+1) s =
      match parseVal F s with
      | none => none
      | some (v, r) =>
        match skipWs r with
        | [] => none
        | c :: r2 =>
          if c = ']' then some (.cons v .nil, r2)
          else if c = ',' then
            match parseArrItems F (skipWs r2) with
            | some (vs, r3) => some (.cons v vs, r3)
            | none => none
          else none := rfl

theorem parseObjItems_quote_step (F : Nat) (r : List Char) :
    parseObjItems (F+1) ('"' :: r) =
      match parseStrGo (r.length + 1) r with
      | none => none
      | some (k, r1) =>
        match skipWs r1 with
        | [] => none
        | c2 :: r2 =>
          if c2 = ':' then
            match parseVal F (skipWs r2) with
            | none => none
            | some (v, r3) =>
              match skipWs r3 with
              | [] => none
              | c3 :: r4 =>
                if c3 = '}' then some (.cons k v .nil, r4)
                else if c3 = ',' then
                  match parseObjItems F (skipWs r4) with
                  | some (kvs, r5) => some (.cons k v kvs, r5)
                  | none => none
                else none
          else none := rfl

theorem parse_dumps (fuel : Nat) :
    (∀ v rest, jfuel v ≤ fuel → GoodFollow rest →
      parseVal fuel (dumpsVal v ++ rest) = some (v, rest)) ∧
    (∀ items rest, jfuelArr items ≤ fuel → items ≠ JsonArr.nil →
      parseArrItems fuel (dumpsArr items ++ (']' :: rest)) = some (items, rest)) ∧
    (∀ kvs rest, jfuelObj kvs ≤ fuel → kvs ≠ JsonObj.nil →
      parseObjItems fuel (dumpsObj kvs ++ ('}' :: rest)) = some (kvs, rest)) := by
  induction fuel with
  | zero =>
    refine ⟨?_, ?_, ?_⟩
    · intro v rest hfu _
      exact absurd hfu (by have := jfuel_pos v; omega)
    · intro items rest hfu _
      exact absurd hfu (by have := jfuelArr_pos items; omega)
    · intro kvs rest hfu _
      exact absurd hfu (by have := jfuelObj_pos kvs; omega)
  | succ F IH =>
    obtain ⟨IHv, IHa, IHo⟩ := IH
    refine ⟨?_, ?_, ?_⟩
    · intro v rest hfu hgf
      cases v with
      | null => exact parseVal_null_step F rest
      | bool b =>
        cases b with
        | true => exact parseVal_true_step F rest
        | false => exact parseVal_false_step F rest
      | num n =>
        show parseVal (F+1) (intDumps n ++ rest) = some (.num n, rest)
        have hnum := parseNumber_intDumps n hgf
        by_cases hneg : n < 0
        · have he : intDumps n ++ rest = '-' :: (natDigits n.natAbs ++ rest) := by
            rw [intDumps, if_pos hneg]
            rfl
          rw [he, parseVal_minus_step]
          rw [he] at hnum
          rw [hnum]
        · obtain ⟨c, t, hct⟩ : ∃ c t, natDigits n.natAbs = c :: t := by
            cases hh : natDigits n.natAbs with
            | nil => exact absurd hh (natDigits_ne_nil _)
            | cons c t => exact ⟨c, t, rfl⟩
          have hdig : c.isDigit = true :=
            natDigits_all_digit n.natAbs c (hct ▸ List.mem_cons_self c t)
          obtain ⟨_, _, _, hn, ht, hf2, hq, hlb, hlc⟩ := isDigit_facts hdig
          have he : intDumps n ++ rest = c :: (t ++ rest) := by
            rw [intDumps, if_neg hneg, hct]
            rfl
          rw [he, parseVal_cons_full, if_neg hn, if_neg ht, if_neg hf2, if_neg hq,
            if_neg hlb, if_neg hlc, if_pos (by rw [hdig]; simp)]
          rw [he] at hnum
          rw [hnum]
      | str s =>
        have he : dumpsVal (.str s) ++ rest = '"' :: (escapeString s ++ ('"' :: rest)) := by
          show ('"' :: (escapeString s ++ ['"'])) ++ rest = _
          simp
        rw [he, parseVal_quote_step]
        rw [parseStrGo_escapeString s _ rest (by
          have := escapeString_length s
          simp only [List.length_append, List.length_cons]
          omega)]
      | arr items =>
        cases items with
        | nil => exact rfl
        | cons x t =>
          have he : dumpsVal (.arr (.cons x t)) ++ rest =
              '[' :: (dumpsArr (.cons x t) ++ (']' :: rest)) := by
            show ('[' :: (dumpsArr (.cons x t) ++ [']'])) ++ rest = _
            simp
          rw [he, parseVal_lbrack_step]
          obtain ⟨c, tl, hct, hws, hbr, _⟩ := dumpsArr_cons_head x t
          have he2 : dumpsArr (.cons x t) ++ (']' :: rest) = c :: (tl ++ (']' :: rest)) := by
            rw [hct]
            rfl
          rw [he2, skipWs_not_ws (head_not_ws hws)]
          show (if c = ']' then some (Json.arr .nil, tl ++ (']' :: rest))
            else match parseArrItems F (c :: (tl ++ (']' :: rest))) with
              | some (items, r3) => some (Json.arr items, r3)
              | none => none) = some (Json.arr (.cons x t), rest)
          rw [if_neg hbr, ← he2]
          rw [IHa (.cons x t) rest (by
            simp only [jfuel, jfuelArr] at hfu ⊢
            omega) (by simp)]
      | obj kvs =>
        cases kvs with
        | nil => exact rfl
        | cons k v t =>
          obtain ⟨W, hW⟩ : ∃ W, dumpsObj (.cons k v t) = '"' :: W := by
            cases t <;> exact ⟨_, rfl⟩
          have he : dumpsVal (.obj (.cons k v t)) ++ rest =
              '{' :: ('"' :: (W ++ ('}' :: rest))) := by
            show ('{' :: (dumpsObj (.cons k v t) ++ ['}'])) ++ rest = _
            rw [hW]
            simp
          rw [he]
          have hred : parseVal (F+1) ('{' :: ('"' :: (W ++ ('}' :: rest)))) =
              match parseObjItems F ('"' :: (W ++ ('}' :: rest))) with
              | some (items, r3) => some (Json.obj items, r3)
              | none => none := rfl
          rw [hred]
          have he2 : '"' :: (W ++ ('}' :: rest)) = dumpsObj (.cons k v t) ++ ('}' :: rest) := by
            rw [hW]
            rfl
          rw [he2]
          rw [IHo (.cons k v t) rest (by
            simp only [jfuel, jfuelObj] at hfu ⊢
            omega) (by simp)]
    · intro items rest hfu hne
      cases items with
      | nil => exact absurd rfl hne
      | cons x t =>
        rw [parseArrItems_step]
        cases t with
        | nil =>
          have h1 : dumpsArr (.cons x .nil) ++ (']' :: rest) = dumpsVal x ++ (']' :: rest) := rfl
          rw [h1, IHv x (']' :: rest) (by
            simp only [jfuelArr] at hfu
            have := jfuel_pos x
            omega) (goodFollow_rbrack rest)]
          rfl
        | cons y t' =>
          have h1 : dumpsArr (.cons x (.cons y t')) ++ (']' :: rest) =
              dumpsVal x ++ (',' :: (' ' :: (dumpsArr (.cons y t') ++ (']' :: rest)))) := by
            show (dumpsVal x ++ (',' :: ' ' :: dumpsArr (.cons y t'))) ++ (']' :: rest) = _
            simp
          rw [h1, IHv x _ (by
            simp only [jfuelArr] at hfu
            have := jfuelArr_pos t'
            have := jfuel_pos y
            omega) (goodFollow_comma _)]
          show (match parseArrItems F (skipWs (dumpsArr (.cons y t') ++ (']' :: rest))) with
            | some (vs, r3) => some (JsonArr.cons x vs, r3)
            | none => none) = some (JsonArr.cons x (.cons y t'), rest)
          obtain ⟨c, tl, hct, hws, _, _⟩ := dumpsArr_cons_head y t'
          have h2 : skipWs (dumpsArr (.cons y t') ++ (']' :: rest)) =
              dumpsArr (.cons y t') ++ (']' :: rest) := by
            rw [hct]
            show skipWs (c :: (tl ++ (']' :: rest))) = _
            rw [skipWs_not_ws (head_not_ws hws)]
            rfl
          rw [h2, IHa (.cons y t') rest (by
            simp only [jfuelArr] at hfu ⊢
            omega) (by simp)]
    · intro kvs rest hfu hne
      cases kvs with
      | nil => exact absurd rfl hne
      | cons k v t =>
        cases t with
        | nil =>
          have h1 : dumpsObj (.cons k v .nil) ++ ('}' :: rest) =
              '"' :: (escapeString k ++ ('"' :: (':' :: (' ' :: (dumpsVal v ++ ('}' :: rest)))))) := by
            show ('"' :: (escapeString k ++ ('"' :: ':' :: ' ' :: dumpsVal v))) ++ ('}' :: rest) = _
            simp
          rw [h1, parseObjItems_quote_step]
          rw [parseStrGo_escapeString k _ _ (by
            have := escapeString_length k
            simp only [List.length_append, List.length_cons]
            omega)]
          show (match parseVal F (skipWs (dumpsVal v ++ ('}' :: rest))) with
            | none => none
            | some (v', r3) =>
              match skipWs r3 with
              | [] => none
              | c3 :: r4 =>
                if c3 = '}' then some (JsonObj.cons k v' .nil, r4)
                else if c3 = ',' then
                  match parseObjItems F (skipWs r4) with
                  | some (kvs, r5) => some (JsonObj.cons k v' kvs, r5)
                  | none => none
                else none) = some (JsonObj.cons k v .nil, rest)
          obtain ⟨c0, t0, h0, hw0, _, _⟩ := dumpsVal_cons v
          have h2 : skipWs (dumpsVal v ++ ('}' :: rest)) = dumpsVal v ++ ('}' :: rest) := by
            rw [h0]
            show skipWs (c0 :: (t0 ++ ('}' :: rest))) = _
            rw [skipWs_not_ws (head_not_ws hw0)]
            rfl
          rw [h2, IHv v _ (by
            simp only [jfuelObj] at hfu
            have := jfuel_pos v
            omega) (goodFollow_rbrace rest)]
          rfl
        | cons k2 v2 t2 =>
          have h1 : dumpsObj (.cons k v (.cons k2 v2 t2)) ++ ('}' :: rest) =
              '"' :: (escapeString k ++ ('"' :: (':' :: (' ' :: (dumpsVal v ++
                (',' :: (' ' :: (dumpsObj (.cons k2 v2 t2) ++ ('}' :: rest))))))))) := by
            show ('"' :: (escapeString k ++ ('"' :: ':' :: ' ' :: dumpsVal v)) ++
              (',' :: ' ' :: dumpsObj (.cons k2 v2 t2))) ++ ('}' :: rest) = _
            simp
          rw [h1, parseObjItems_quote_step]
          rw [parseStrGo_escapeString k _ _ (by
            have := escapeString_length k
            simp only [List.length_append, List.length_cons]
            omega)]
          have h2 : skipWs (dumpsVal v ++ (',' :: (' ' :: (dumpsObj (.cons k2 v2 t2) ++ ('}' :: rest))))) =
              dumpsVal v ++ (',' :: (' ' :: (dumpsObj (.cons k2 v2 t2) ++ ('}' :: rest)))) := by
            obtain ⟨c0, t0, h0, hw0, _, _⟩ := dumpsVal_cons v
            rw [h0]
            show skipWs (c0 :: (t0 ++ _)) = _
            rw [skipWs_not_ws (head_not_ws hw0)]
            rfl
          show (match parseVal F (skipWs (dumpsVal v ++ (',' :: (' ' ::
              (dumpsObj (.cons k2 v2 t2) ++ ('}' :: rest)))))) with
            | none => none
            | some (v', r3) =>
              match skipWs r3 with
              | [] => none
              | c3 :: r4 =>
                if c3 = '}' then some (JsonObj.cons k v' .nil, r4)
                else if c3 = ',' then
                  match parseObjItems F (skipWs r4) with
                  | some (kvs, r5) => some (JsonObj.cons k v' kvs, r5)
                  | none => none
                else none) = some (JsonObj.cons k v (.cons k2 v2 t2), rest)
          rw [h2, IHv v _ (by
            simp only [jfuelObj] at hfu
            have := jfuelObj_pos t2
            omega) (goodFollow_comma _)]
          show (match parseObjItems F (skipWs (dumpsObj (.cons k2 v2 t2) ++ ('}' :: rest))) with
            | some (kvs, r5) => some (JsonObj.cons k v kvs, r5)
            | none => none) = some (JsonObj.cons k v (.cons k2 v2 t2), rest)
          have h3 : skipWs (dumpsObj (.cons k2 v2 t2) ++ ('}' :: rest)) =
              dumpsObj (.cons k2 v2 t2) ++ ('}' :: rest) := by
            obtain ⟨W2, hW2⟩ : ∃ W2, dumpsObj (.cons k2 v2 t2) = '"' :: W2 := by
              cases t2 <;> exact ⟨_, rfl⟩
            rw [hW2]
            show skipWs ('"' :: (W2 ++ ('}' :: rest))) = _
            rw [skipWs_not_ws (head_not_ws (by decide))]
            rfl
          rw [h3, IHo (.cons k2 v2 t2) rest (by
            simp only [jfuelObj] at hfu ⊢
            omega) (by simp)]

theorem parseVal_dumps {v : Json} {rest : List Char} {fuel : Nat}
    (hf : jfuel v ≤ fuel) (hg : GoodFollow rest) :
    parseVal fuel (dumpsVal v ++ rest) = some (v, rest) :=
  (parse_dumps fuel).1 v rest hf hg

mutual
theorem jfuel_le_dumps (v : Json) : jfuel v ≤ 2 * (dumpsVal v).length := by
  cases v with
  | null => simp [jfuel, dumpsVal]
  | bool b => cases b <;> simp [jfuel, dumpsVal]
  | num n =>
    have hne : intDumps n ≠ [] := by
      rw [intDumps]
      split_ifs
      · simp
      · exact natDigits_ne_nil _
    have : 0 < (intDumps n).length := List.length_pos.mpr hne
    show jfuel (.num n) ≤ 2 * (intDumps n).length
    simp only [jfuel]
    omega
  | str s =>
    show jfuel (.str s) ≤ 2 * ('"' :: (escapeString s ++ ['"'])).length
    simp only [jfuel, List.length_cons]
    omega
  | arr items =>
    have h := jfuelArr_le_dumps items
    show 1 + jfuelArr items ≤ 2 * ('[' :: (dumpsArr items ++ [']'])).length
    simp only [List.length_cons, List.length_append, List.length_singleton] at h ⊢
    omega
  | obj items =>
    have h := jfuelObj_le_dumps items
    show 1 + jfuelObj items ≤ 2 * ('{' :: (dumpsObj items ++ ['}'])).length
    simp only [List.length_cons, List.length_append, List.length_singleton] at h ⊢
    omega
theorem jfuelArr_le_dumps (items : JsonArr) :
    jfuelArr items ≤ 2 * (dumpsArr items).length + 2 := by
  cases items with
  | nil => simp [jfuelArr, dumpsArr]
  | cons x t =>
    have hx := jfuel_le_dumps x
    cases t with
    | nil =>
      show 1 + jfuel x + 1 ≤ 2 * (dumpsVal x).length + 2
      omega
    | cons y t' =>
      have ht := jfuelArr_le_dumps (.cons y t')
      show 1 + jfuel x + jfuelArr (.cons y t') ≤
        2 * (dumpsVal x ++ (',' :: ' ' :: dumpsArr (.cons y t'))).length + 2
      simp only [List.length_append, List.length_cons] at ht ⊢
      omega
theorem jfuelObj_le_dumps (kvs : JsonObj) :
    jfuelObj kvs ≤ 2 * (dumpsObj kvs).length + 2 := by
  cases kvs with
  | nil => simp [jfuelObj, dumpsObj]
  | cons k v t =>
    have hv := jfuel_le_dumps v
    cases t with
    | nil =>
      show 1 + jfuel v + 1 ≤
        2 * ('"' :: (escapeString k ++ ('"' :: ':' :: ' ' :: dumpsVal v))).length + 2
      simp only [List.length_cons, List.length_append]
      omega
    | cons k2 v2 t2 =>
      have ht := jfuelObj_le_dumps (.cons k2 v2 t2)
      show 1 + jfuel v + jfuelObj (.cons k2 v2 t2) ≤
        2 * ('"' :: (escapeString k ++ ('"' :: ':' :: ' ' :: dumpsVal v)) ++
          (',' :: ' ' :: dumpsObj (.cons k2 v2 t2))).length + 2
      simp only [List.length_cons, List.length_append] at ht ⊢
      omega
end

theorem ws_char_cases {c : Char} (h : isJsonWs c = true) :
    c = ' ' ∨ (c = '\t') ∨ (c = '\n') ∨ (c = '\r') := by
  simp only [isJsonWs, Bool.or_eq_true, decide_eq_true_eq] at h
  tauto

theorem ws_goodFollow {c : Char} (h : isJsonWs c = true) (rest : List Char) :
    GoodFollow (c :: rest) := by
  apply goodFollow_cons
  rcases ws_char_cases h with h' | h' | h' | h' <;> (subst h'; exact (by decide))

theorem jloads_dumps_ws (v : Json) (c1 c2 : Char)
    (h1 : isJsonWs c1 = true) (h2 : isJsonWs c2 = true) :
    jloads (c1 :: (dumpsVal v ++ [c2])) = some v := by
  obtain ⟨c0, t0, h0, hw0, _, _⟩ := dumpsVal_cons v
  have hskip : skipWs (c1 :: (dumpsVal v ++ [c2])) = dumpsVal v ++ [c2] := by
    rw [skipWs_cons_ws h1, h0]
    show skipWs (c0 :: (t0 ++ [c2])) = _
    rw [skipWs_not_ws (head_not_ws hw0)]
    rfl
  have hfuel : jfuel v ≤ 2 * (c1 :: (dumpsVal v ++ [c2])).length + 2 := by
    have := jfuel_le_dumps v
    simp only [List.length_cons, List.length_append]
    omega
  have hgood : GoodFollow [c2] := ws_goodFollow h2 []
  rw [jloads, hskip, parseVal_dumps hfuel hgood]
  show (if skipWs [c2] = [] then some v else none) = some v
  rw [skipWs_all_ws (by intro c hc; simp at hc; subst hc; exact h2)]
  simp

theorem containsSub_sandwich_false {sep p E : List Char} {c1 c2 : Char}
    (hsep : sep ≠ []) (hp : containsSub sep p = false) (hc1 : c1 ∉ sep)
    (hc2 : c2 ∉ sep) (hE : containsSub sep E = false) :
    containsSub sep ((c1 :: (p ++ [c2])) ++ E) = false := by
  have hform : (c1 :: (p ++ [c2])) ++ E = [] ++ c1 :: (p ++ (c2 :: E)) := by
    simp
  rw [hform]
  cases h : containsSub sep ([] ++ c1 :: (p ++ (c2 :: E)))
  · rfl
  · exfalso
    rcases (containsSub_append_cons_iff hc1 [] _).mp h with h' | h'
    · simp only [containsSub, isPrefixOf_nil_false hsep] at h'
      exact Bool.false_ne_true h'
    · rcases (containsSub_append_cons_iff hc2 p E).mp h' with h3 | h3
      · rw [hp] at h3
        exact Bool.false_ne_true h3
      · rw [hE] at h3
        exact Bool.false_ne_true h3

theorem decode_span (junk p tail : List Char) (c1 c2 : Char)
    (hj : containsSub startTok junk = false)
    (hps : containsSub startTok p = false)
    (hpe : containsSub endTok p = false)
    (hc1s : c1 ∉ startTok) (hc1e : c1 ∉ endTok)
    (hc2s : c2 ∉ startTok) (hc2e : c2 ∉ endTok)
    (ht : containsSub startTok (endTok ++ tail) = false) :
    decodeOutput (junk ++ (startTok ++ ((c1 :: (p ++ [c2])) ++ (endTok ++ tail)))) =
      match jloads (c1 :: (p ++ [c2])) with
      | some v => .ok v
      | none => .error .invalidJson := by
  have hstart_ne : startTok ≠ [] := by decide
  have hend_ne : endTok ≠ [] := by decide
  have hov_s : NoSelfOverlap startTok := by decide
  have hov_e : NoSelfOverlap endTok := by decide
  have hmid_s : containsSub startTok ((c1 :: (p ++ [c2])) ++ (endTok ++ tail)) = false :=
    containsSub_sandwich_false hstart_ne hps hc1s hc2s ht
  have hmid_e : containsSub endTok (c1 :: (p ++ [c2])) = false := by
    have h := containsSub_sandwich_false (E := []) hend_ne hpe hc1e hc2e
      (by simp [containsSub, isPrefixOf_nil_false hend_ne])
    simpa using h
  have harg : junk ++ (startTok ++ ((c1 :: (p ++ [c2])) ++ (endTok ++ tail))) =
      junk ++ startTok ++ ((c1 :: (p ++ [c2])) ++ (endTok ++ tail)) := by
    rw [List.append_assoc]
  rw [decodeOutput, harg, splitOn_first hstart_ne hov_s hj,
    splitOn_of_not_contains hstart_ne hmid_s]
  show (match jloads ((splitOn endTok ((c1 :: (p ++ [c2])) ++ (endTok ++ tail))).headD []) with
    | some v => Except.ok v
    | none => Except.error DecodeErr.invalidJson) = _
  have harg2 : (c1 :: (p ++ [c2])) ++ (endTok ++ tail) =
      (c1 :: (p ++ [c2])) ++ endTok ++ tail := by
    rw [List.append_assoc]
  rw [harg2, splitOn_first hend_ne hov_e hmid_e]
  rfl

theorem decodeOutput_encodeScripty (junk : List Char) (v : Json)
    (hj : containsSub startTok junk = false)
    (h1 : containsSub startTok (dumpsVal v) = false)
    (h2 : containsSub endTok (dumpsVal v) = false) :
    decodeOutput (junk ++ encodeScripty (dumpsVal v)) = .ok v := by
  have harg : junk ++ encodeScripty (dumpsVal v) =
      junk ++ (startTok ++ ((('\n' : Char) :: (dumpsVal v ++ ['\n'])) ++
        (endTok ++ ['\n']))) := by
    simp [encodeScripty]
  have hside : ('\n' : Char) ∉ startTok ∧ ('\n' : Char) ∉ endTok ∧
      containsSub startTok (endTok ++ ['\n']) = false := by decide
  rw [harg, decode_span junk (dumpsVal v) ['\n'] '\n' '\n' hj h1 h2
    hside.1 hside.2.1 hside.1 hside.2.1 hside.2.2]
  rw [jloads_dumps_ws v '\n' '\n' (by decide) (by decide)]

theorem decodeOutput_encodeMaketools (junk : List Char) (v : Json)
    (hj : containsSub startTok junk = false)
    (h1 : containsSub startTok (dumpsVal v) = false)
    (h2 : containsSub endTok (dumpsVal v) = false) :
    decodeOutput (junk ++ encodeMaketools (dumpsVal v)) = .ok v := by
  have harg : junk ++ encodeMaketools (dumpsVal v) =
      junk ++ (startTok ++ (((' ' : Char) :: (dumpsVal v ++ [' '])) ++
        (endTok ++ ['\n']))) := by
    simp [encodeMaketools]
  have hside : (' ' : Char) ∉ startTok ∧ (' ' : Char) ∉ endTok ∧
      containsSub startTok (endTok ++ ['\n']) = false := by decide
  rw [harg, decode_span junk (dumpsVal v) ['\n'] ' ' ' ' hj h1 h2
    hside.1 hside.2.1 hside.1 hside.2.1 hside.2.2]
  rw [jloads_dumps_ws v ' ' ' ' (by decide) (by decide)]

/-! ## The scripty data model (`scripty/models/script.py`) -/

inductive ArgumentType where
  | string : ArgumentType
  | integer : ArgumentType
  | float : ArgumentType
  | boolean : ArgumentType
  | list : ArgumentType
  | dict : ArgumentType
  | file : ArgumentType
  | json : ArgumentType
  deriving DecidableEq

structure ScriptInput where
  name : List Char
  type : ArgumentType
  description : List Char
  /-- The declared literal default (the `value` field); `none` models Python
  `None`.  The Python field also admits int/float/bool defaults; only string
  defaults are modelled (the file-path defaults the validator interpolates
  are strings). -/
  value : Option (List Char)

structure ScriptOutput where
  name : List Char
  type : ArgumentType
  description : List Char
  filepath : List Char

structure ScriptModel where
  name : List Char
  inputs : List ScriptInput
  outputs : List ScriptOutput

/-- Python `dict.get` on the model of a dict (keys unique in any dict that
Python code can build). -/
def objLookup : JsonObj → List Char → Option Json
  | .nil, _ => none
  | .cons k v t, key => if k = key then some v else objLookup t key

def objKeys : JsonObj → List (List Char)
  | .nil => []
  | .cons k _ t => k :: objKeys t

/-! ## `os.path.join` / workspace paths (`scripty/services/files.py`) -/

/-- `posixpath.join(a, b)`: an absolute `b` discards `a`; otherwise they are
joined with a single `/` unless `a` is empty or already ends in `/`. -/
def osPathJoin (a b : List Char) : List Char :=
  if b.head? = some '/' then b
  else if a = [] ∨ a.getLast? = some '/' then a ++ b
  else a ++ ('/' :: b)

/-- `FileService.get_file_directory`: `CONTAINER_DATA_DIRECTORY/<workspace>`. -/
def getFileDirectory (containerDataDirectory workspaceId : List Char) : List Char :=
  osPathJoin containerDataDirectory workspaceId

/-! ## The input validator (`run_code_with_inputs` lines 113-126) -/

/-- The file-typed argument used as a path in `os.path.join`; a non-string
argument would raise `TypeError` there (outside the model, and outside
every claim). -/
def argPathStr : Json → List Char
  | .str s => s
  | _ => []

/-- Python `f"{v}"` on the declared default. -/
def pyShowOptStr : Option (List Char) → List Char
  | none => S "None"
  | some s => s

def fileNotFoundMsg (v : Option (List Char)) : List Char :=
  S "File " ++ (pyShowOptStr v ++ S " not found, maybe the user didn't upload it yet.")

def missingValueMsg (name : List Char) : List Char := name ++ S " value is not set"

/-- One iteration of the validation loop: the missing/None check
(`continue`s past the file check), then for FILE-typed inputs the
existence check of the path joined onto the workspace directory.  The
file-not-found line interpolates `input_data.value` — the declared
default — not the supplied path. -/
def checkInput (dir : List Char) (fsExists : List Char → Bool) (args : JsonObj)
    (d : ScriptInput) : List (List Char) :=
  match objLookup args d.name with
  | none => [missingValueMsg d.name]
  | some .null => [missingValueMsg d.name]
  | some v =>
    if d.type = ArgumentType.file ∧ fsExists (osPathJoin dir (argPathStr v)) = false then
      [fileNotFoundMsg d.value]
    else []

/-- All violations, aggregated over the declarations in order. -/
def validationErrors (dir : List Char) (fsExists : List Char → Bool) (args : JsonObj)
    (decls : List ScriptInput) : List (List Char) :=
  decls.foldr (fun d acc => checkInput dir fsExists args d ++ acc) []

def joinLines : List (List Char) → List Char
  | [] => []
  | [e] => e
  | e :: e2 :: t => e ++ ('\n' :: joinLines (e2 :: t))

/-- `"Some input validation errors occured : \n" + "\n".join(errors)`. -/
def validationMsg (errs : List (List Char)) : List Char :=
  S "Some input validation errors occured : \n" ++ joinLines errs

/-! ## The execution pipeline (`run_code_with_inputs` lines 107-148) -/

inductive ExecErr where
  | validation (msg : List Char) : ExecErr
  | execution (stderr : List Char) : ExecErr
  | protocol (e : DecodeErr) : ExecErr
  deriving DecidableEq

structure RunResult where
  exitCode : Int
  stdout : List Char
  stderr : List Char

/-- The outputs dict `{v.name: v.filepath for v in outputs_data}`. -/
def outputsInit : List ScriptOutput → JsonObj
  | [] => .nil
  | o :: t => .cons o.name (.str o.filepath) (outputsInit t)

/-- Abstract subprocess: what the spawned program produces from the decoded
`event` dict and the pre-populated `output` dict it receives via argv. -/
def RunnerFn : Type := Json → JsonObj → RunResult

/-- scripty `CodeExecutorService.run_code_with_inputs`: aggregate
validation (raising before any spawn), one subprocess, non-zero exit
surfaced as `RuntimeError(stderr)`, then the sentinel decode.  The second
component counts spawned subprocesses. -/
def runCodeWithInputs (runner : RunnerFn) (script : ScriptModel) (dir : List Char)
    (fsExists : List Char → Bool) (args : JsonObj) : Except ExecErr Json × Nat :=
  let errs := validationErrors dir fsExists args script.inputs
  if errs = [] then
    let res := runner (Json.obj args) (outputsInit script.outputs)
    if res.exitCode = 0 then
      match decodeOutput res.stdout with
      | .ok v => (.ok v, 1)
      | .error e => (.error (.protocol e), 1)
    else (.error (.execution res.stderr), 1)
  else (.error (.validation (validationMsg errs)), 0)

/-- A fragment's semantics in event/output mode: from the `event` dict and
the initial `output` dict to the final `output` dict plus whatever the
fragment itself printed to stdout. -/
def Fragment : Type := Json → JsonObj → JsonObj × List Char

/-- The program synthesized by scripty's `CODE_WRAPPER_TEMPLATE`, run as a
subprocess: the fragment runs (its prints come first on stdout), then the
postamble prints the sentinel-delimited `json.dumps(output)`.  Exit code 0;
a raising fragment is modelled by a different `RunnerFn`. -/
def fragRunner (frag : Fragment) : RunnerFn := fun event out0 =>
  let r := frag event out0
  { exitCode := 0, stdout := r.2 ++ encodeScripty (dumpsVal (.obj r.1)), stderr := [] }

/-! ## The test-verdict classifier (`run_test` lines 195-256) -/

def lowerStr (s : List Char) : List Char := s.map Char.toLower

/-- Python regex `\s` (ASCII range; the classifier only meets runner
output). -/
def pyIsSpace (c : Char) : Bool :=
  c = ' ' || c = '\t' || c = '\n' || c = '\r' || c = '\x0b' || c = '\x0c'

/-- Python regex `\w` (ASCII range). -/
def pyIsWordChar (c : Char) : Bool :=
  c.isAlpha || c.isDigit || c = '_'

/-- `re.search`: try the matcher at each position, leftmost first. -/
def searchFrom (m : List Char → Option (List Char)) : List Char → Option (List Char)
  | [] => m []
  | c :: r =>
    match m (c :: r) with
    | some g => some g
    | none => searchFrom m r

/-- `(\d+)\s+<word>` anchored at the current position; returns group 1.
Greedy maximal munch coincides with regex backtracking here because the
three character classes are disjoint. -/
def matchNumThenWord (w : List Char) (s : List Char) : Option (List Char) :=
  let d := s.takeWhile Char.isDigit
  if d = [] then none
  else
    let r1 := s.dropWhile Char.isDigit
    if r1.takeWhile pyIsSpace = [] then none
    else if w.isPrefixOf (r1.dropWhile pyIsSpace) then some d else none

/-- `re.search(r'(\d+)\s+failed', out)`, group 1. -/
def searchNumFailed (s : List Char) : Option (List Char) :=
  searchFrom (matchNumThenWord (S "failed")) s

/-- `re.search(r'(\d+)\s+passed', out)`, group 1. -/
def searchNumPassed (s : List Char) : Option (List Char) :=
  searchFrom (matchNumThenWord (S "passed")) s

/-- The greedy `(?:,\s*\d+\s+\w+)*` tail of the summary regex (fuelled;
each iteration consumes at least three characters). -/
def summaryTail : Nat → List Char → List Char
  | 0, _ => []
  | f+1, s =>
    match s with
    | ',' :: r =>
      let ws := r.takeWhile pyIsSpace
      let r1 := r.dropWhile pyIsSpace
      let d := r1.takeWhile Char.isDigit
      if d = [] then []
      else
        let r2 := r1.dropWhile Char.isDigit
        let ws2 := r2.takeWhile pyIsSpace
        if ws2 = [] then []
        else
          let r3 := r2.dropWhile pyIsSpace
          let w := r3.takeWhile pyIsWordChar
          if w = [] then []
          else ',' :: (ws ++ d ++ ws2 ++ w ++ summaryTail f (r3.dropWhile pyIsWordChar))
    | _ => []

/-- `(\d+\s+\w+(?:,\s*\d+\s+\w+)*)` anchored at the current position. -/
def matchSummary (s : List Char) : Option (List Char) :=
  let d := s.takeWhile Char.isDigit
  if d = [] then none
  else
    let r1 := s.dropWhile Char.isDigit
    let ws := r1.takeWhile pyIsSpace
    if ws = [] then none
    else
      let r2 := r1.dropWhile pyIsSpace
      let w := r2.takeWhile pyIsWordChar
      if w = [] then none
      else some (d ++ ws ++ w ++ summaryTail s.length (r2.dropWhile pyIsWordChar))

/-- `re.search(r'(\d+\s+\w+(?:,\s*\d+\s+\w+)*)', out)`, group 1. -/
def searchSummary (s : List Char) : Option (List Char) :=
  searchFrom matchSummary s

/-- The verdict classification of `run_test` (identical in scripty and
maketools): the pytest exit-code table, the summary extraction from
stdout, and the exit-0-but-"failed" override, in the source's order. -/
def classifyTestResult (exitCode : Int) (out : List Char) : Bool × List Char :=
  let success := if exitCode = 0 then true else false
  let details :=
    if exitCode = 0 then S "All tests passed"
    else if exitCode = 1 then S "Some tests failed"
    else if exitCode = 2 then S "Test execution was interrupted"
    else if exitCode = 3 then S "Internal pytest error"
    else if exitCode = 4 then S "pytest command line usage error"
    else if exitCode = 5 then S "No tests were collected"
    else S "Unknown exit code: " ++ intDumps exitCode
  let lo := lowerStr out
  let details2 :=
    if out ≠ [] then
      if containsSub (S "failed") lo = true ∧ containsSub (S "passed") lo = true then
        match searchSummary out with
        | some g => g
        | none => details
      else if containsSub (S "passed") lo = true ∧ exitCode = 0 then
        match searchNumPassed out with
        | some d => d ++ S " tests passed"
        | none => details
      else details
    else details
  if exitCode = 0 ∧ containsSub (S "failed") lo = true then
    (false,
      match searchNumFailed out with
      | some d => d ++ S " tests failed"
      | none => S "Tests failed (detected from output)")
  else (success, details2)

/-! ## `run_test`'s temporary file over a file-system state -/

abbrev FsState := List (List Char)

structure TestResultModel where
  success : Bool
  details : List Char
  exitCode : Int
  stdout : List Char
  stderr : List Char

def mkTestResult (r : RunResult) : TestResultModel :=
  let c := classifyTestResult r.exitCode r.stdout
  { success := c.1, details := c.2, exitCode := r.exitCode,
    stdout := r.stdout, stderr := r.stderr }

/-- `os.unlink` inside `try/except OSError: pass`. -/
def fsUnlink (p : List Char) (st : FsState) : FsState := st.filter (fun q => q ≠ p)

/-- `run_test` (scripty lines 174-263, maketools lines 195-284): write the
assembled harness to a fresh temporary file, run the test subprocess
(modelled by its outcome: a `RunResult`, or a raised exception carried as
`.error`), and unlink the temporary file in the `finally` block on every
exit path.  Returns the call's outcome and the final file-system state. -/
def runTestModel (tmpPath : List Char) (sub : Except (List Char) RunResult)
    (st : FsState) : Except (List Char) TestResultModel × FsState :=
  let st1 := tmpPath :: st
  match sub with
  | .error e => (.error e, fsUnlink tmpPath st1)
  | .ok r => (.ok (mkTestResult r), fsUnlink tmpPath st1)

/-! ## maketools typed-function execution of the add fragment -/

/-- The add-two-integers fragment: `def run(a: int, b: int) -> int`. -/
def addRun (a b : Int) : Int := a + b

/-- `pydantic_auto_convert(run)(data)` for `run` above: plain int
parameters are looked up by name in the argument dict; a missing argument
raises `ValueError` (the `none` case). -/
def pydanticAutoConvertAdd (data : JsonObj) : Option Json :=
  match objLookup data (S "a"), objLookup data (S "b") with
  | some (.num a), some (.num b) => some (.num (addRun a b))
  | _, _ => none

/-- maketools typed-function execution of the add fragment
(`CODE_WRAPPER_TEMPLATE` lines 74-81 composed with `execute_code`): decode
argv, convert and call `run`, print
`Wrapper(wrapped=result).model_dump()['wrapped']` — the identity on plain
data — between the sentinels, then slice and `json.loads` the stdout. -/
def executeTypedAdd (args : JsonObj) : Except ExecErr Json :=
  match pydanticAutoConvertAdd args with
  | none => .error (.execution (S "ValueError: Missing required argument"))
  | some result =>
    match decodeOutput (encodeMaketools (dumpsVal result)) with
    | .ok v => .ok v
    | .error e => .error (.protocol e)

/-! ## Validation helper lemmas -/

theorem mem_validationErrors {dir : List Char} {fsExists : List Char → Bool}
    {args : JsonObj} {d : ScriptInput} {decls : List ScriptInput}
    (hd : d ∈ decls) {e : List Char} (he : e ∈ checkInput dir fsExists args d) :
    e ∈ validationErrors dir fsExists args decls := by
  induction decls with
  | nil => cases hd
  | cons d1 t ih =>
    show e ∈ checkInput dir fsExists args d1 ++ validationErrors dir fsExists args t
    rw [List.mem_append]
    rcases List.mem_cons.mp hd with h | h
    · subst h
      exact Or.inl he
    · exact Or.inr (ih h)

theorem containsSub_joinLines {e : List Char} {errs : List (List Char)}
    (he : e ∈ errs) : containsSub e (joinLines errs) = true := by
  induction errs with
  | nil => cases he
  | cons e1 t ih =>
    cases t with
    | nil =>
      have h1 : e = e1 := by simpa using he
      subst h1
      exact containsSub_self e
    | cons e2 t2 =>
      show containsSub e (e1 ++ ('\n' :: joinLines (e2 :: t2))) = true
      rcases List.mem_cons.mp he with h | h
      · subst h
        exact containsSub_append_left _ (containsSub_self e)
      · exact containsSub_append_right e1
          (containsSub_cons_of '\n' (ih h))

theorem containsSub_validationMsg {e : List Char} {errs : List (List Char)}
    (he : e ∈ errs) : containsSub e (validationMsg errs) = true :=
  containsSub_append_right _ (containsSub_joinLines he)

/-! ## Claim theorems -/

/-- C1 (counterexample): the captured stdout `"<$output> {"a": 1}"` lacks
the end sentinel, yet decoding does not raise — it returns the value
`{"a": 1}` parsed from everything after the start sentinel.  This refutes
"decoding raises and never returns partial data whenever either sentinel
is missing". -/
theorem decode_missing_end_returns_value :
    containsSub endTok (S "<$output> \x7b\"a\": 1\x7d") = false ∧
      decodeOutput (S "<$output> \x7b\"a\": 1\x7d") =
        .ok (.obj (.cons (S "a") (.num 1) .nil)) := by
  constructor
  · decide
  · rfl

/-- C1 (amended): when the captured stdout lacks the *start* sentinel, the
decode raises (the `[1]` index error, surfaced as the spec's
`ProtocolError`) and never returns data; when only the end sentinel is
missing the decoder parses everything after the start sentinel and can
return a value. -/
theorem decode_missing_start_raises (out : List Char)
    (h : containsSub startTok out = false) :
    decodeOutput out = .error .missingSpan := by
  rw [decodeOutput, splitOn_of_not_contains (by decide) h]

theorem decode_missing_start_raises_witness :
    decodeOutput (S "no sentinels here") = .error .missingSpan :=
  decode_missing_start_raises (S "no sentinels here") (by decide)

/-- C8: text before the first start sentinel and after the end sentinel is
ignored; the decoder parses only the interior of the sentinel span. -/
theorem decode_ignores_surrounding_noise :
    decodeOutput (S "debug\n<$output> \x7b\"a\":1\x7d </$output>\nnoise") =
      .ok (.obj (.cons (S "a") (.num 1) .nil)) := by
  rfl

/-- C3 (counterexample): for `v = "</$output>"` (a JSON-serializable
string), `decode(encode(v))` is a decode error, not `v`: the serialized
payload itself contains the end sentinel, so the slice cuts it short. -/
theorem decode_encode_fails_on_sentinel_string :
    decodeOutput (encodeMaketools (dumpsVal (.str (S "</$output>")))) =
        .error .invalidJson ∧
      (Except.error DecodeErr.invalidJson ≠
        (Except.ok (Json.str (S "</$output>")) : Except DecodeErr Json)) := by
  constructor
  · rfl
  · intro h
    exact Except.noConfusion h

/-- C3 (amended): `decode(encode(v)) = v` for every JSON value `v` whose
serialization contains neither sentinel token, for both wrapper
postambles (maketools' one-line `print` and scripty's three `print`s). -/
theorem decode_encode_roundtrip (v : Json)
    (h1 : containsSub startTok (dumpsVal v) = false)
    (h2 : containsSub endTok (dumpsVal v) = false) :
    decodeOutput (encodeMaketools (dumpsVal v)) = .ok v ∧
      decodeOutput (encodeScripty (dumpsVal v)) = .ok v := by
  constructor
  · have h := decodeOutput_encodeMaketools [] v (by decide) h1 h2
    simpa using h
  · have h := decodeOutput_encodeScripty [] v (by decide) h1 h2
    simpa using h

theorem decode_encode_roundtrip_witness :
    decodeOutput (encodeMaketools (dumpsVal
        (.obj (.cons (S "a") (.num 1) .nil)))) =
      .ok (.obj (.cons (S "a") (.num 1) .nil)) ∧
      decodeOutput (encodeScripty (dumpsVal
        (.obj (.cons (S "a") (.num 1) .nil)))) =
      .ok (.obj (.cons (S "a") (.num 1) .nil)) :=
  decode_encode_roundtrip _ (by decide) (by decide)

/-- C2 (counterexample): with exit code 0 and stdout `"3 failed, 2
passed"` (which contains the summary text), the verdict's detail is not
`"3 failed"` — the exit-0 override rewrites it to `"3 tests failed"`. -/
theorem classify_detail_not_3_failed :
    containsSub (S "3 failed, 2 passed") (S "3 failed, 2 passed") = true ∧
      (classifyTestResult 0 (S "3 failed, 2 passed")).2 ≠ S "3 failed" := by
  constructor
  · decide
  · decide

/-- C2 (amended): exit code 0 with stdout `"3 failed, 2 passed"` yields a
failure verdict whose detail is `"3 tests failed"` (the heuristic text
scan downgrades the exit-code classification and formats the count with
the word "tests"). -/
theorem classify_exit0_failed_summary :
    classifyTestResult 0 (S "3 failed, 2 passed") = (false, S "3 tests failed") := by
  rfl

/-- C4: validation aggregates rather than failing fast — a request with a
missing (null) input and a separate file-typed input naming a non-existent
path produces one ValidationError whose message contains both violation
lines, and the subprocess runner is never invoked (spawn count 0),
whichever runner is plugged in. -/
theorem validation_aggregates_and_blocks_spawn
    (runner : RunnerFn) (script : ScriptModel) (dir : List Char)
    (fsExists : List Char → Bool) (args : JsonObj)
    (d1 d2 : ScriptInput) (p : List Char)
    (hd1 : d1 ∈ script.inputs) (hd2 : d2 ∈ script.inputs)
    (h1 : objLookup args d1.name = none)
    (h2ty : d2.type = ArgumentType.file)
    (h2arg : objLookup args d2.name = some (.str p))
    (h2ex : fsExists (osPathJoin dir p) = false) :
    (runCodeWithInputs runner script dir fsExists args).2 = 0 ∧
      (runCodeWithInputs runner script dir fsExists args).1 =
        .error (.validation
          (validationMsg (validationErrors dir fsExists args script.inputs))) ∧
      containsSub (missingValueMsg d1.name)
        (validationMsg (validationErrors dir fsExists args script.inputs)) = true ∧
      containsSub (fileNotFoundMsg d2.value)
        (validationMsg (validationErrors dir fsExists args script.inputs)) = true := by
  have he1 : missingValueMsg d1.name ∈ checkInput dir fsExists args d1 := by
    unfold checkInput
    rw [h1]
    exact List.mem_singleton.mpr rfl
  have he2 : fileNotFoundMsg d2.value ∈ checkInput dir fsExists args d2 := by
    unfold checkInput
    rw [h2arg]
    show fileNotFoundMsg d2.value ∈
      (if d2.type = ArgumentType.file ∧
          fsExists (osPathJoin dir (argPathStr (.str p))) = false then
        [fileNotFoundMsg d2.value]
      else [])
    rw [if_pos ⟨h2ty, h2ex⟩]
    exact List.mem_singleton.mpr rfl
  have hmem1 := mem_validationErrors hd1 he1
  have hmem2 := mem_validationErrors hd2 he2
  have hne : validationErrors dir fsExists args script.inputs ≠ [] := by
    intro h
    rw [h] at hmem1
    cases hmem1
  refine ⟨?_, ?_, containsSub_validationMsg hmem1, containsSub_validationMsg hmem2⟩
  · show (runCodeWithInputs runner script dir fsExists args).2 = 0
    unfold runCodeWithInputs
    rw [if_neg hne]
  · show (runCodeWithInputs runner script dir fsExists args).1 = _
    unfold runCodeWithInputs
    rw [if_neg hne]

theorem validation_aggregates_witness :
    (runCodeWithInputs (fun _ _ => ⟨0, [], []⟩)
        ⟨S "s",
          [⟨S "a", ArgumentType.string, [], none⟩,
           ⟨S "f", ArgumentType.file, [], some (S "default.txt")⟩],
          []⟩
        [] (fun _ => false)
        (.cons (S "f") (.str (S "supplied.txt")) .nil)).2 = 0 ∧
      (runCodeWithInputs (fun _ _ => ⟨0, [], []⟩)
        ⟨S "s",
          [⟨S "a", ArgumentType.string, [], none⟩,
           ⟨S "f", ArgumentType.file, [], some (S "default.txt")⟩],
          []⟩
        [] (fun _ => false)
        (.cons (S "f") (.str (S "supplied.txt")) .nil)).1 =
        .error (.validation
          (validationMsg (validationErrors [] (fun _ => false)
            (.cons (S "f") (.str (S "supplied.txt")) .nil)
            [⟨S "a", ArgumentType.string, [], none⟩,
             ⟨S "f", ArgumentType.file, [], some (S "default.txt")⟩]))) ∧
      containsSub (missingValueMsg (S "a"))
        (validationMsg (validationErrors [] (fun _ => false)
          (.cons (S "f") (.str (S "supplied.txt")) .nil)
          [⟨S "a", ArgumentType.string, [], none⟩,
           ⟨S "f", ArgumentType.file, [], some (S "default.txt")⟩])) = true ∧
      containsSub (fileNotFoundMsg (some (S "default.txt")))
        (validationMsg (validationErrors [] (fun _ => false)
          (.cons (S "f") (.str (S "supplied.txt")) .nil)
          [⟨S "a", ArgumentType.string, [], none⟩,
           ⟨S "f", ArgumentType.file, [], some (S "default.txt")⟩])) = true :=
  validation_aggregates_and_blocks_spawn (fun _ _ => ⟨0, [], []⟩) _ [] _ _
    ⟨S "a", ArgumentType.string, [], none⟩
    ⟨S "f", ArgumentType.file, [], some (S "default.txt")⟩
    (S "supplied.txt")
    (List.mem_cons_self _ _)
    (List.mem_cons_of_mem _ (List.mem_cons_self _ _))
    rfl rfl rfl rfl

/-- C5 (counterexample): typed-function execution of the add-two-integers
fragment with `{"a": 2, "b": 3}` returns the bare JSON value `5` — not the
object `{"result": 5}` the claim states.  The wrapper's `Wrapper` model is
unwrapped (`model_dump()['wrapped']`) before printing, so scalars stay
scalars on the wire. -/
theorem typed_add_returns_bare_scalar :
    executeTypedAdd (.cons (S "a") (.num 2) (.cons (S "b") (.num 3) .nil)) =
        .ok (.num 5) ∧
      ((Except.ok (Json.num 5) : Except ExecErr Json) ≠
        .ok (.obj (.cons (S "result") (.num 5) .nil))) := by
  constructor
  · rfl
  · intro h
    injection h with h2
    exact Json.noConfusion h2

/-- C5 (amended): typed-function execution of the add-two-integers
fragment with `{"a": 2, "b": 3}` returns the bare value `5`. -/
theorem typed_add_execution :
    executeTypedAdd (.cons (S "a") (.num 2) (.cons (S "b") (.num 3) .nil)) =
      .ok (.num 5) := by
  rfl

/-- C6 (counterexample): a fragment that adds an undeclared key `"extra"`
to the `output` dict yields an Execution Result whose keys are not the
declared output names — nothing constrains the fragment's mutation of the
dict. -/
theorem result_keys_escape_declared_outputs :
    (runCodeWithInputs
        (fragRunner (fun _ out0 => (JsonObj.cons (S "extra") (.num 1) out0, [])))
        ⟨S "s", [], [⟨S "res", ArgumentType.string, [], S "out.txt"⟩]⟩
        [] (fun _ => true) .nil).1 =
      .ok (.obj (.cons (S "extra") (.num 1)
        (.cons (S "res") (.str (S "out.txt")) .nil))) ∧
      objKeys (.cons (S "extra") (.num 1)
          (.cons (S "res") (.str (S "out.txt")) .nil)) ≠
        [⟨S "res", ArgumentType.string, [], S "out.txt"⟩].map
          (fun (o : ScriptOutput) => o.name) := by
  constructor
  · rfl
  · decide

/-- C6 (amended): for a successful event/output-mode execution, the
Execution Result is exactly the `output` dict as the fragment left it (its
keys included); the keys are exactly the declared output names whenever
the fragment preserves the key set of the pre-populated dict — and only
then.  The decode hypotheses say the fragment's own stdout contains no
start sentinel and the serialized dict contains no sentinel. -/
theorem result_keys_match_when_fragment_preserves_keys
    (frag : Fragment) (script : ScriptModel) (dir : List Char)
    (fsExists : List Char → Bool) (args : JsonObj)
    (outF : JsonObj) (printed : List Char)
    (hval : validationErrors dir fsExists args script.inputs = [])
    (hfrag : frag (Json.obj args) (outputsInit script.outputs) = (outF, printed))
    (hp : containsSub startTok printed = false)
    (h1 : containsSub startTok (dumpsVal (.obj outF)) = false)
    (h2 : containsSub endTok (dumpsVal (.obj outF)) = false)
    (hk : objKeys outF = script.outputs.map (fun o => o.name)) :
    (runCodeWithInputs (fragRunner frag) script dir fsExists args).1 =
        .ok (.obj outF) ∧
      objKeys outF = script.outputs.map (fun o => o.name) := by
  refine ⟨?_, hk⟩
  unfold runCodeWithInputs
  rw [if_pos hval]
  show (if (fragRunner frag (Json.obj args) (outputsInit script.outputs)).exitCode = 0 then _
    else _ : Except ExecErr Json × Nat).1 = _
  unfold fragRunner
  rw [hfrag]
  show (match decodeOutput (printed ++ encodeScripty (dumpsVal (.obj outF))) with
    | .ok v => ((.ok v : Except ExecErr Json), 1)
    | .error e => (.error (.protocol e), 1)).1 = .ok (.obj outF)
  rw [decodeOutput_encodeScripty printed (.obj outF) hp h1 h2]

theorem result_keys_match_witness :
    (runCodeWithInputs (fragRunner (fun _ out0 => (out0, [])))
        ⟨S "s", [], [⟨S "res", ArgumentType.string, [], S "out.txt"⟩]⟩
        [] (fun _ => true) .nil).1 =
      .ok (.obj (.cons (S "res") (.str (S "out.txt")) .nil)) ∧
      objKeys (.cons (S "res") (.str (S "out.txt")) .nil) =
        [⟨S "res", ArgumentType.string, [], S "out.txt"⟩].map
          (fun (o : ScriptOutput) => o.name) :=
  result_keys_match_when_fragment_preserves_keys
    (fun _ out0 => (out0, []))
    ⟨S "s", [], [⟨S "res", ArgumentType.string, [], S "out.txt"⟩]⟩
    [] (fun _ => true) .nil
    (.cons (S "res") (.str (S "out.txt")) .nil) []
    rfl rfl (by decide) (by decide) (by decide) (by decide)

/-- C7: whatever the test subprocess does — returns a verdict or raises —
the temporary source file holding the assembled harness is gone from the
file system after `run_test` completes (the `finally` block unlinks it on
every exit path). -/
theorem runTest_temp_file_deleted (tmpPath : List Char)
    (sub : Except (List Char) RunResult) (st : FsState) :
    tmpPath ∉ (runTestModel tmpPath sub st).2 := by
  cases sub <;> simp [runTestModel, fsUnlink, List.mem_filter]

/-- C9: when a file-typed input fails the existence check, the violation
line interpolates the declaration's stored default (`input_data.value`),
not the supplied path; whenever the two differ, the reported message
differs from the message that would have named the path actually
checked. -/
theorem file_error_names_declared_default
    (dir : List Char) (fsExists : List Char → Bool) (args : JsonObj)
    (d : ScriptInput) (p dv : List Char)
    (hty : d.type = ArgumentType.file)
    (harg : objLookup args d.name = some (.str p))
    (hex : fsExists (osPathJoin dir p) = false)
    (hdv : d.value = some dv)
    (hne : dv ≠ p) :
    checkInput dir fsExists args d = [fileNotFoundMsg (some dv)] ∧
      fileNotFoundMsg (some dv) ≠ fileNotFoundMsg (some p) := by
  constructor
  · unfold checkInput
    rw [harg]
    show (if d.type = ArgumentType.file ∧
        fsExists (osPathJoin dir (argPathStr (.str p))) = false then
      [fileNotFoundMsg d.value] else []) = _
    rw [if_pos ⟨hty, hex⟩, hdv]
  · intro h
    unfold fileNotFoundMsg pyShowOptStr at h
    have h2 := List.append_cancel_left h
    exact hne (List.append_cancel_right h2)

theorem file_error_names_declared_default_witness :
    checkInput [] (fun _ => false)
        (.cons (S "f") (.str (S "supplied.txt")) .nil)
        ⟨S "f", ArgumentType.file, [], some (S "default.txt")⟩ =
      [fileNotFoundMsg (some (S "default.txt"))] ∧
      fileNotFoundMsg (some (S "default.txt")) ≠
        fileNotFoundMsg (some (S "supplied.txt")) :=
  file_error_names_declared_default [] (fun _ => false)
    (.cons (S "f") (.str (S "supplied.txt")) .nil)
    ⟨S "f", ArgumentType.file, [], some (S "default.txt")⟩
    (S "supplied.txt") (S "default.txt")
    rfl rfl rfl rfl (by decide)

/-- C10: for a file-typed input, an absolute supplied path makes
`os.path.join` discard the workspace prefix — the existence check then
consults the absolute path itself, so validation passes exactly when that
host path exists, wherever it lies; only a relative supplied path keeps
the workspace directory as a prefix of the checked path. -/
theorem absolute_path_escapes_workspace
    (dir : List Char) (fsExists : List Char → Bool) (args : JsonObj)
    (d : ScriptInput) (p : List Char)
    (hty : d.type = ArgumentType.file)
    (harg : objLookup args d.name = some (.str p)) :
    (p.head? = some '/' →
      osPathJoin dir p = p ∧
        (checkInput dir fsExists args d = [] ↔ fsExists p = true)) ∧
    (p.head? ≠ some '/' → dir <+: osPathJoin dir p) := by
  constructor
  · intro habs
    have hjoin : osPathJoin dir p = p := by
      rw [osPathJoin, if_pos habs]
    refine ⟨hjoin, ?_⟩
    unfold checkInput
    rw [harg]
    show (if d.type = ArgumentType.file ∧
        fsExists (osPathJoin dir (argPathStr (.str p))) = false then
      [fileNotFoundMsg d.value] else []) = [] ↔ _
    constructor
    · intro h
      cases hfs : fsExists p
      · exfalso
        rw [if_pos ⟨hty, by show fsExists (osPathJoin dir p) = false; rw [hjoin]; exact hfs⟩] at h
        exact absurd h (List.cons_ne_nil _ _)
      · rfl
    · intro hfs
      rw [if_neg]
      intro hcon
      have h3 : fsExists (osPathJoin dir p) = false := hcon.2
      rw [hjoin, hfs] at h3
      exact absurd h3 (by decide)
  · intro hrel
    rw [osPathJoin, if_neg hrel]
    by_cases hd : dir = [] ∨ dir.getLast? = some '/'
    · rw [if_pos hd]
      exact List.prefix_append dir p
    · rw [if_neg hd]
      exact List.prefix_append dir ('/' :: p)

theorem absolute_path_escapes_witness :
    ((S "/etc/passwd").head? = some '/' →
      osPathJoin (S "/data/ws") (S "/etc/passwd") = S "/etc/passwd" ∧
        (checkInput (S "/data/ws") (fun q => q == S "/etc/passwd")
            (.cons (S "f") (.str (S "/etc/passwd")) .nil)
            ⟨S "f", ArgumentType.file, [], none⟩ = [] ↔
          (fun q => q == S "/etc/passwd") (S "/etc/passwd") = true)) ∧
    ((S "/etc/passwd").head? ≠ some '/' →
      S "/data/ws" <+: osPathJoin (S "/data/ws") (S "/etc/passwd")) :=
  absolute_path_escapes_workspace (S "/data/ws") (fun q => q == S "/etc/passwd")
    (.cons (S "f") (.str (S "/etc/passwd")) .nil)
    ⟨S "f", ArgumentType.file, [], none⟩
    (S "/etc/passwd") rfl rfl
